import Mathlib

/-!
Orchestrator: a shallow embedding of `main.go`.

The program is a single Go file: an HTTP handler (`Config.ServeHTTP`) that
checks a shared secret and runs `Config.update`, which takes a try-lock,
reloads the configuration (`ReadConfig`), deletes the deployment tree
(`os.RemoveAll`), repopulates it from a tar stream served by an upstream
server (`Config.fetchLatestCode`) and runs two docker commands (`Config.up`,
`Config.prune`).

Modelling conventions.

* Go's `error` values are their text (`String`); a run-time panic is a third
  outcome, `Res.fault`.
* The outside world is an explicit value `World`: the filesystem, the process
  umask, the answers of the upstream server and of external commands (oracles
  read by the code), the log of external actions performed (`trace`) and the
  lines printed on standard output.
* A path is kept in the lexical normal form computed by `filepath.Clean`
  (`Path`); the filesystem has no symbolic links, and the directories `/`,
  `.`, `..`, `../..`, ... (paths with no named element) always exist.
* File contents are strings; a filesystem node records its nine permission
  bits.  Permission bits are recorded, not enforced (the process is assumed
  privileged enough), and the only failures of filesystem calls are the
  structural ones (missing parent, file where a directory is needed, ...).
* A `*Config` is modelled by `Option Config` where the code handles a pointer
  value that may be nil, and the mutex `Config.lock` by a boolean field.
* A call runs from start to end without interleaving; a call made "while the
  slot is held" is a call on a `Config` whose `lock` is `true`.  A panic in
  the handler is recovered by `net/http`, so the process and the `Config`
  survive it.  `main` (flag parsing and `http.ListenAndServe`) is not
  modelled.
-/

namespace Orchestrator

/-! ## Outcomes -/

/-- Outcome of a Go call: a value, a returned `error` (its text), or a panic. -/
inductive Res (α : Type) where
  | ok (a : α)
  | err (e : String)
  | fault (msg : String)
deriving DecidableEq

/-- Text of the panic raised by a load or store through a nil pointer. -/
def nilDeref : String :=
  "runtime error: invalid memory address or nil pointer dereference"

/-! ## Paths: `filepath.Clean`, `filepath.Join`, `filepath.Dir` -/

/-- A path in the normal form of `filepath.Clean`: rooted or not, a number of
leading `..` elements (always `0` when rooted), then the named elements. -/
structure Path where
  rooted : Bool
  ups : Nat
  elems : List String
deriving DecidableEq

/-- Split a string at every `/`; the result is never empty. -/
def splitSlash : List Char → List (List Char)
  | [] => [[]]
  | c :: cs =>
    if c = '/' then [] :: splitSlash cs
    else
      match splitSlash cs with
      | [] => [[c]]
      | h :: t => (c :: h) :: t

/-- One step of the element loop of `filepath.Clean`: empty elements and `.`
are dropped, `..` removes the last named element if there is one, is dropped
at the root and is kept as a leading `..` otherwise, any other element is
appended. -/
def cleanStep (p : Path) (e : List Char) : Path :=
  if e = [] ∨ e = ['.'] then p
  else if e = ['.', '.'] then
    match p.elems with
    | [] => if p.rooted then p else { p with ups := p.ups + 1 }
    | _ :: _ => { p with elems := p.elems.dropLast }
  else { p with elems := p.elems ++ [String.mk e] }

/-- The start state of `filepath.Clean` on the characters `cs`. -/
def cleanInit (cs : List Char) : Path :=
  { rooted := cs.head? = some '/', ups := 0, elems := [] }

/-- Go's `filepath.Clean` (Unix), with the result kept as a `Path`; the empty
string cleans to `.`. -/
def Clean (s : String) : Path :=
  (splitSlash s.toList).foldl cleanStep (cleanInit s.toList)

/-- Go's `filepath.Join(a, b)`: the first non-empty argument onwards is joined
with `/` and cleaned; `none` stands for the empty string, returned when both
arguments are empty. -/
def Join (a b : String) : Option Path :=
  if a ≠ "" then some (Clean (a ++ "/" ++ b))
  else if b ≠ "" then some (Clean b)
  else none

/-- Go's `filepath.Dir` of a cleaned path (`none` is the empty string, whose
`Dir` is `.`): the last named element is dropped; `Dir "/" = "/"`,
`Dir "." = "."`, `Dir ".." = "."`, `Dir "../.." = ".."`. -/
def Dir : Option Path → Path
  | none => { rooted := false, ups := 0, elems := [] }
  | some p =>
    match p.elems with
    | [] => { p with ups := p.ups - 1 }
    | _ :: _ => { p with elems := p.elems.dropLast }

/-- Lexical containment: `p` is `d` or lies below it. -/
def Path.under (d p : Path) : Prop :=
  d.rooted = p.rooted ∧ d.ups = p.ups ∧ d.elems <+: p.elems

instance (d p : Path) : Decidable (Path.under d p) := by
  unfold Path.under; infer_instance

/-! ## The filesystem -/

/-- A filesystem object: a directory or a regular file, with its permission
bits. -/
inductive Node where
  | dir (perm : Nat)
  | file (perm : Nat) (content : String)
deriving DecidableEq

/-- The permission bits of a filesystem object. -/
def Node.perm : Node → Nat
  | Node.dir m => m
  | Node.file m _ => m

/-- The filesystem: the object, if any, at each path with a named element. -/
abbrev FS := Path → Option Node

/-- The filesystem with nothing in it. -/
def FS.empty : FS := fun _ => none

/-- The filesystem `fs` with `n` stored at `p`. -/
def FS.set (fs : FS) (p : Path) (n : Node) : FS :=
  fun q => if q = p then some n else fs q

/-- What `os.Stat` finds at `p`: paths without a named element are existing
directories. -/
def stat (fs : FS) (p : Path) : Option Node :=
  match p.elems with
  | [] => some (Node.dir 0o755)
  | _ :: _ => fs p

/-- The permission bits a new object gets: the requested ones minus the
umask. -/
def applyUmask (umask perm : Nat) : Nat :=
  (perm % 512) - ((perm % 512) &&& umask)

/-- Go's `os.Mkdir(p, perm)`. -/
def Mkdir (fs : FS) (umask : Nat) (p : Path) (perm : Nat) : Except String FS :=
  match stat fs p with
  | some _ => .error "mkdir: file exists"
  | none =>
    match stat fs { p with elems := p.elems.dropLast } with
    | none => .error "mkdir: no such file or directory"
    | some (Node.file _ _) => .error "mkdir: not a directory"
    | some (Node.dir _) => .ok (fs.set p (Node.dir (applyUmask umask perm)))

/-- Go's `os.MkdirAll` on the path made of `rooted`, `ups` and the named
elements `rev` listed last-first.  If the path is a directory there is
nothing to do, if it is a file the call fails, otherwise the parent is made
first and then the directory itself. -/
def mkdirAllRev (umask : Nat) (rooted : Bool) (ups : Nat) (perm : Nat) :
    List String → FS → Except String FS
  | [], fs => .ok fs
  | e :: rest, fs =>
    let p : Path := { rooted := rooted, ups := ups, elems := (e :: rest).reverse }
    match stat fs p with
    | some (Node.dir _) => .ok fs
    | some (Node.file _ _) => .error "mkdir: not a directory"
    | none =>
      match mkdirAllRev umask rooted ups perm rest fs with
      | .error msg => .error msg
      | .ok fs1 =>
        match Mkdir fs1 umask p perm with
        | .ok fs2 => .ok fs2
        | .error msg =>
          match stat fs1 p with
          | some (Node.dir _) => .ok fs1
          | _ => .error msg

/-- Go's `os.MkdirAll(p, perm)`. -/
def MkdirAll (fs : FS) (umask : Nat) (p : Path) (perm : Nat) : Except String FS :=
  mkdirAllRev umask p.rooted p.ups perm p.elems.reverse fs

/-- Go's `os.Create(p)` followed by writing `content` to the file:
`OpenFile(p, O_RDWR|O_CREATE|O_TRUNC, 0666)`.  A new file gets mode `0666`
minus the umask; an existing file is truncated and keeps its mode. -/
def Create (fs : FS) (umask : Nat) (p : Path) (content : String) : Except String FS :=
  match stat fs p with
  | some (Node.dir _) => .error "open: is a directory"
  | some (Node.file perm _) => .ok (fs.set p (Node.file perm content))
  | none =>
    match stat fs { p with elems := p.elems.dropLast } with
    | none => .error "open: no such file or directory"
    | some (Node.file _ _) => .error "open: not a directory"
    | some (Node.dir _) => .ok (fs.set p (Node.file (applyUmask umask 0o666) content))

/-- Go's `os.ReadFile`. -/
def ReadFile (fs : FS) (p : Option Path) : Except String String :=
  match p with
  | none => .error "open: no such file or directory"
  | some p =>
    match stat fs p with
    | none => .error "open: no such file or directory"
    | some (Node.dir _) => .error "read: is a directory"
    | some (Node.file _ content) => .ok content

/-- The test of `os.RemoveAll` for a path that ends in a `.` element. -/
def endsWithDot (s : String) : Bool :=
  s = "." ∨ (s.toList.reverse.take 2 = ['.', '/'])

/-- The outcome of resolving a path the way the kernel does: the path it
names (which may or may not exist), or a missing directory on the way, or a
regular file where a directory is needed on the way. -/
inductive Lookup where
  | found (p : Path)
  | missing
  | notDir
deriving DecidableEq

/-- Kernel path resolution without symbolic links: from the directory `cur`,
follow the elements one by one.  Before each step `cur` must exist and be a
directory; the step itself moves as `filepath.Clean` does (an empty element
and `.` stay, `..` goes to the parent, a name goes to the child). -/
def walk (fs : FS) : Path → List (List Char) → Lookup
  | cur, [] => .found cur
  | cur, e :: es =>
    match stat fs cur with
    | none => .missing
    | some (Node.file _ _) => .notDir
    | some (Node.dir _) => walk fs (cleanStep cur e) es

/-- Go's `os.RemoveAll(s)`.  The empty path is ignored and a path ending in
`.` is refused.  Otherwise the path is resolved: when a directory on the way
is missing there is nothing to remove and no error; when a regular file is
met on the way the call fails and removes nothing.  When the path resolves to
`d`, then `d` and everything below it is removed and there is no error (also
when `d` does not exist), except that a `d` without a named element, or one
reached through a final `..`, is only emptied: it stays in place and the call
fails. -/
def RemoveAll (fs : FS) (s : String) : FS × Option String :=
  if s = "" then (fs, none)
  else if endsWithDot s then (fs, some "RemoveAll: invalid argument")
  else
    match walk fs (cleanInit s.toList) (splitSlash s.toList) with
    | .missing => (fs, none)
    | .notDir => (fs, some "unlinkat: not a directory")
    | .found d =>
      if d.elems = [] then
        (fun q => if Path.under d q ∧ q ≠ d then none else fs q,
          some "unlinkat: device or resource busy")
      else if (splitSlash s.toList).getLast? = some ['.', '.'] then
        (fun q => if Path.under d q ∧ q ≠ d then none else fs q,
          some "unlinkat: directory not empty")
      else (fun q => if Path.under d q then none else fs q, none)

/-! ## Strings -/

/-- Go's `unicode.IsSpace`. -/
def isSpace (c : Char) : Bool :=
  let n := c.toNat
  (9 ≤ n ∧ n ≤ 13) ∨ n = 0x20 ∨ n = 0x85 ∨ n = 0xA0 ∨ n = 0x1680 ∨
  (0x2000 ≤ n ∧ n ≤ 0x200A) ∨ n = 0x2028 ∨ n = 0x2029 ∨ n = 0x202F ∨
  n = 0x205F ∨ n = 0x3000

/-- Go's `strings.TrimSpace`: leading and trailing white space removed. -/
def TrimSpace (s : String) : String :=
  String.mk ((s.toList.dropWhile isSpace).reverse.dropWhile isSpace).reverse

/-! ## The configuration -/

/-- The struct `Config`; the mutex `lock` is `true` while held. -/
structure Config where
  ConfigDir : String
  SourceLocation : String
  SourceServer : String
  SourcePassword : String
  OrchestratorPassword : String
  lock : Bool
deriving DecidableEq

/-- A store `c.f = v` through the pointer `c`: a panic when `c` is nil,
otherwise the pointed-to struct is updated by `f`. -/
def store (c : Option Config) (f : Config → Config) : Res (Option Config) :=
  match c with
  | none => .fault nilDeref
  | some v => .ok (some (f v))

/-- The function `ReadConfig(dir)`.  The local `c` is declared by
`var c *Config`, so it is nil, and every `c.X = ...` is a store through it.
The result is the returned pointer. -/
def ReadConfig (fs : FS) (dir : String) : Res (Option Config) :=
  let c : Option Config := none
  match store c (fun v => { v with ConfigDir := dir }) with
  | .fault m => .fault m
  | .err e => .err e
  | .ok c =>
    match ReadFile fs (Join dir "source_location") with
    | .error e => .err e
    | .ok b =>
      match store c (fun v => { v with SourceLocation := TrimSpace b }) with
      | .fault m => .fault m
      | .err e => .err e
      | .ok c =>
        match ReadFile fs (Join dir "source_server") with
        | .error e => .err e
        | .ok b =>
          match store c (fun v => { v with SourceServer := TrimSpace b }) with
          | .fault m => .fault m
          | .err e => .err e
          | .ok c =>
            match ReadFile fs (Join dir "source_password") with
            | .error e => .err e
            | .ok b =>
              match store c (fun v => { v with SourcePassword := TrimSpace b }) with
              | .fault m => .fault m
              | .err e => .err e
              | .ok c =>
                match ReadFile fs (Join dir "orchestrator_password") with
                | .error e => .err e
                | .ok b =>
                  match store c (fun v => { v with OrchestratorPassword := TrimSpace b }) with
                  | .fault m => .fault m
                  | .err e => .err e
                  | .ok c => .ok c

/-! ## The outside world -/

/-- A tar header as `tar.Reader.Next` returns it: the fields the program
reads. -/
structure Header where
  Name : String
  Typeflag : Char
  Mode : Int
deriving DecidableEq

/-- The constant `tar.TypeReg`. -/
def TypeReg : Char := '0'

/-- The constant `tar.TypeDir`. -/
def TypeDir : Char := '5'

/-- One successful `tr.Next()`: the header (possibly nil), the bytes that
reading the entry yields, and the error that ends the reading, if any. -/
structure TarItem where
  header : Option Header
  data : String
  copyErr : Option String
deriving DecidableEq

/-- A response body read as a tar stream: the entries in stream order, then
`io.EOF` (`endErr = none`) or the error `tr.Next()` fails with. -/
structure TarStream where
  items : List TarItem
  endErr : Option String
deriving DecidableEq

/-- An HTTP response of the upstream server. -/
structure HttpResponse where
  StatusCode : Nat
  Status : String
  Body : TarStream
deriving DecidableEq

/-- An action on the outside world other than a filesystem call. -/
inductive Action where
  | get (url password : String)
  | exec (dir : String) (argv : List String)
deriving DecidableEq

/-- The outside world.  `newRequest url` is the error of
`http.NewRequest("GET", url, nil)`, if any; `roundTrip url password` is what
`http.DefaultClient.Do` returns for a GET of `url` carrying the header
`Password: password`; `run dir argv` is the error (if any) and the combined
output of running `argv` in directory `dir`. -/
structure World where
  fs : FS
  umask : Nat
  newRequest : String → Option String
  roundTrip : String → String → Except String HttpResponse
  run : String → List String → Option String × String
  trace : List Action
  stdout : List String

/-- Go's `os.FileMode(m)` for an `int64`: conversion to `uint32`. -/
def FileMode (m : Int) : Nat := (m % 4294967296).toNat

/-- The constant `os.ModePerm`. -/
def ModePerm : Nat := 0o777

/-! ## Fetching and unpacking the archive -/

/-- One iteration of the `for` loop of `fetchLatestCode` on the entry `it`:
the world afterwards and the error the function returns with, if any. -/
def extractItem (dst : String) (w : World) (it : TarItem) : World × Option String :=
  match it.header with
  | none => ({ w with stdout := w.stdout ++ ["NIL"] }, none)
  | some header =>
    let w := { w with stdout := w.stdout ++ [header.Name] }
    let path := Join dst header.Name
    match MkdirAll w.fs w.umask (Dir path) ModePerm with
    | .error e => (w, some e)
    | .ok fs1 =>
      let w := { w with fs := fs1 }
      if header.Typeflag = TypeDir then
        match path with
        | none => (w, some "mkdir: no such file or directory")
        | some p =>
          match MkdirAll w.fs w.umask p (FileMode header.Mode) with
          | .error e => (w, some e)
          | .ok fs2 => ({ w with fs := fs2 }, none)
      else if header.Typeflag = TypeReg then
        match path with
        | none => (w, some "open: no such file or directory")
        | some p =>
          match Create w.fs w.umask p it.data with
          | .error e => (w, some e)
          | .ok fs2 => ({ w with fs := fs2 }, it.copyErr)
      else (w, none)

/-- The `for` loop of `fetchLatestCode`: the entries in stream order, until
one fails or the stream ends, with `io.EOF` (success) or with an error. -/
def extractAll (dst : String) : List TarItem → Option String → World → World × Option String
  | [], endErr, w => (w, endErr)
  | it :: rest, endErr, w =>
    match extractItem dst w it with
    | (w1, some e) => (w1, some e)
    | (w1, none) => extractAll dst rest endErr w1

/-- The method `Config.fetchLatestCode(dst)`. -/
def fetchLatestCode (c : Config) (dst : String) (w : World) : World × Option String :=
  let url := "http://" ++ c.SourceServer
  match w.newRequest url with
  | some e => (w, some e)
  | none =>
    let w := { w with trace := w.trace ++ [Action.get url c.SourcePassword] }
    match w.roundTrip url c.SourcePassword with
    | .error e => (w, some e)
    | .ok resp =>
      if resp.StatusCode ≠ 200 then (w, some resp.Status)
      else extractAll dst resp.Body.items resp.Body.endErr w

/-! ## The docker commands -/

/-- The method `Config.prune()`: `docker image prune -f` run in the source
location. -/
def prune (c : Config) (w : World) : World × Option String :=
  let argv := ["docker", "image", "prune", "-f"]
  let w1 := { w with trace := w.trace ++ [Action.exec c.SourceLocation argv] }
  match w.run c.SourceLocation argv with
  | (some e, out) => (w1, some (e ++ ": " ++ out))
  | (none, _) => (w1, none)

/-- The method `Config.up()`: `docker compose up --force-recreate --build -d`
run in the source location. -/
def up (c : Config) (w : World) : World × Option String :=
  let argv := ["docker", "compose", "up", "--force-recreate", "--build", "-d"]
  let w1 := { w with trace := w.trace ++ [Action.exec c.SourceLocation argv] }
  match w.run c.SourceLocation argv with
  | (some e, out) => (w1, some (e ++ ": " ++ out))
  | (none, _) => (w1, none)

/-! ## The update and the handler -/

/-- The part of `Config.update` after the configuration reload, run on the
reloaded configuration `c`: delete the tree, fetch, `up`, `prune`. -/
def updateSteps (c : Config) (w : World) : World × Option String :=
  match RemoveAll w.fs c.SourceLocation with
  | (fs1, some e) => ({ w with fs := fs1 }, some e)
  | (fs1, none) =>
    match fetchLatestCode c c.SourceLocation { w with fs := fs1 } with
    | (w2, some e) => (w2, some e)
    | (w2, none) =>
      match up c w2 with
      | (w3, some e) => (w3, some e)
      | (w3, none) => prune c w3

/-- Go's `c.lock.TryLock()`: whether the lock was taken, and the struct
afterwards. -/
def TryLock (c : Config) : Bool × Config :=
  if c.lock then (false, c) else (true, { c with lock := true })

/-- Go's `c.lock.Unlock()` on a held lock. -/
def Unlock (c : Config) : Config := { c with lock := false }

/-- The method `Config.update()`.  `TryLock` fails when the lock is held;
otherwise the lock is taken, the body runs, and the deferred `Unlock` of the
receiver's lock runs however the body ends, a panic included.  The reloaded
configuration only replaces the local variable `c`. -/
def update (c : Config) (w : World) : Config × World × Res Unit :=
  match TryLock c with
  | (false, c0) => (c0, w, .err "locked")
  | (true, held) =>
    let body : World × Res Unit :=
      match ReadConfig w.fs held.ConfigDir with
      | .fault m => (w, .fault m)
      | .err e => (w, .err e)
      | .ok none => (w, .fault nilDeref)
      | .ok (some c1) =>
        match updateSteps c1 w with
        | (w1, some e) => (w1, .err e)
        | (w1, none) => (w1, .ok ())
    (Unlock held, body.1, body.2)

/-- The headers of an HTTP request, keys in canonical form. -/
abbrev HttpHeader := List (String × String)

/-- Go's `Header.Get`: the first value of the key, or the empty string. -/
def HttpHeader.Get (h : HttpHeader) (key : String) : String :=
  match h.find? (fun kv => kv.1 = key) with
  | some kv => kv.2
  | none => ""

/-- An HTTP request: the part the handler reads. -/
structure Request where
  Header : HttpHeader
deriving DecidableEq

/-- What the handler has written when it returns: status code and body. -/
structure Response where
  status : Nat
  body : String
deriving DecidableEq

/-- The constant `http.StatusUnauthorized`. -/
def StatusUnauthorized : Nat := 401

/-- The constant `http.StatusInternalServerError`. -/
def StatusInternalServerError : Nat := 500

/-- Go's `http.Error`: the status and the message followed by a newline. -/
def httpError (msg : String) (code : Nat) : Response :=
  { status := code, body := msg ++ "\n" }

/-- The method `Config.ServeHTTP(w, r)`.  A handler that returns without
writing answers `200` with an empty body; a panic leaves no response. -/
def ServeHTTP (c : Config) (w : World) (r : Request) : Config × World × Res Response :=
  if r.Header.Get "Password" ≠ c.OrchestratorPassword then
    (c, w, .ok (httpError "Unauthorized" StatusUnauthorized))
  else
    match update c w with
    | (c1, w1, .err e) => (c1, w1, .ok (httpError e StatusInternalServerError))
    | (c1, w1, .ok ()) => (c1, w1, .ok { status := 200, body := "" })
    | (c1, w1, .fault m) => (c1, w1, .fault m)

/-! ## Observations on the filesystem and on an archive -/

/-- The content of the regular file at `q`, if there is one. -/
def fileAt (fs : FS) (q : Path) : Option String :=
  match stat fs q with
  | some (Node.file _ s) => some s
  | _ => none

/-- Whether `q` is a directory. -/
def dirAt (fs : FS) (q : Path) : Bool :=
  match stat fs q with
  | some (Node.dir _) => true
  | _ => false

/-- `Grow fs fs1 t`: the filesystem `fs1` is `fs` with new directories at some
paths that held nothing, all of them `t` or above it. -/
def Grow (fs fs1 : FS) (t : Path) : Prop :=
  ∀ q, stat fs1 q = stat fs q ∨
    (stat fs q = none ∧ (∃ m, stat fs1 q = some (Node.dir m)) ∧ Path.under q t)

/-- The bytes the entry `it` writes at `q`: its data when it is a regular
file whose name resolves to `q`. -/
def itemWrite (dst : String) (it : TarItem) (q : Path) : Option String :=
  match it.header with
  | none => none
  | some h => if h.Typeflag = TypeReg ∧ Join dst h.Name = some q then some it.data else none

/-- The bytes the archive leaves at `q`: the data of the last regular-file
entry whose name resolves to `q`. -/
def written (dst : String) : List TarItem → Path → Option String
  | [], _ => none
  | it :: rest, q =>
    match written dst rest q with
    | some s => some s
    | none => itemWrite dst it q

/-- The filesystem `fs` matches the archive `items` unpacked at `dst`:
(1) the name of every directory entry resolves to a directory; (2) the name
of every regular-file entry resolves to a file holding the bytes the archive
leaves at that path (those of the last entry written there); (3) a
regular-file entry that no later entry overwrites has its own bytes on disk;
(4) every file at or below `dst` is at the path of a regular-file entry and
holds that entry's bytes. -/
def TreeMatches (dst : String) (items : List TarItem) (fs : FS) : Prop :=
  (∀ it ∈ items, ∀ hd, it.header = some hd → hd.Typeflag = TypeDir →
    ∃ p, Join dst hd.Name = some p ∧ dirAt fs p = true) ∧
  (∀ it ∈ items, ∀ hd, it.header = some hd → hd.Typeflag = TypeReg →
    ∃ p s, Join dst hd.Name = some p ∧ written dst items p = some s ∧
      fileAt fs p = some s) ∧
  (∀ pre it post hd p, items = pre ++ it :: post → it.header = some hd →
    hd.Typeflag = TypeReg → Join dst hd.Name = some p →
    (∀ jt ∈ post, itemWrite dst jt p = none) →
    fileAt fs p = some it.data) ∧
  (∀ q s, Path.under (Clean dst) q → fileAt fs q = some s →
    ∃ it ∈ items, ∃ hd, it.header = some hd ∧ hd.Typeflag = TypeReg ∧
      Join dst hd.Name = some q ∧ it.data = s)

/-- The filesystem `fs1` is `fs0` with the entries `done` unpacked at `dst`
in stream order: every path holds the bytes `done` leaves there (those of the
last of its regular-file entries resolving to the path) and otherwise the
file content it had in `fs0`, and the name of every directory entry of `done`
resolves to a directory. -/
def UnpackedOnto (dst : String) (done : List TarItem) (fs0 fs1 : FS) : Prop :=
  (∀ q, fileAt fs1 q =
    match written dst done q with
    | some s => some s
    | none => fileAt fs0 q) ∧
  (∀ it ∈ done, ∀ hd, it.header = some hd → hd.Typeflag = TypeDir →
    ∃ p, Join dst hd.Name = some p ∧ dirAt fs1 p = true)

/-- What `ReadConfig` is specified to return, for comparison with the code:
the first failing read is returned as the error; otherwise the result is the
configuration with `ConfigDir = dir` and the trimmed contents of the four
files, with a fresh (free) lock. -/
def ReadConfigClaimed (fs : FS) (dir : String) : Res (Option Config) :=
  match ReadFile fs (Join dir "source_location") with
  | .error e => .err e
  | .ok b1 =>
    match ReadFile fs (Join dir "source_server") with
    | .error e => .err e
    | .ok b2 =>
      match ReadFile fs (Join dir "source_password") with
      | .error e => .err e
      | .ok b3 =>
        match ReadFile fs (Join dir "orchestrator_password") with
        | .error e => .err e
        | .ok b4 =>
          .ok (some { ConfigDir := dir, SourceLocation := TrimSpace b1,
                      SourceServer := TrimSpace b2, SourcePassword := TrimSpace b3,
                      OrchestratorPassword := TrimSpace b4, lock := false })

/-! ## Concrete configurations, archives and worlds -/

/-- A configuration as loaded at process start, lock free. -/
def cfgAtStart : Config :=
  { ConfigDir := "config", SourceLocation := "/srv/app",
    SourceServer := "src.example:8080", SourcePassword := "pw",
    OrchestratorPassword := "S1", lock := false }

/-- The configuration `cfgAtStart` while an update holds the slot. -/
def cfgBusy : Config := { cfgAtStart with lock := true }

/-- A configuration directory `config` with the four files, readable. -/
def configFiles (location server sourcePw triggerPw : String) : FS :=
  (((FS.empty.set ⟨false, 0, ["config", "source_location"]⟩ (Node.file 0o600 location)).set
      ⟨false, 0, ["config", "source_server"]⟩ (Node.file 0o600 server)).set
      ⟨false, 0, ["config", "source_password"]⟩ (Node.file 0o600 sourcePw)).set
      ⟨false, 0, ["config", "orchestrator_password"]⟩ (Node.file 0o600 triggerPw)

/-- A world with filesystem `fs` and umask `0`, whose upstream server answers
every request `200 OK` with the tar stream `body`, and in which
`docker compose up` ends as `upResult` and every other command succeeds. -/
def worldOf (fs : FS) (body : TarStream) (upResult : Option String × String) : World :=
  { fs := fs, umask := 0,
    newRequest := fun _ => none,
    roundTrip := fun _ _ => .ok { StatusCode := 200, Status := "200 OK", Body := body },
    run := fun _ argv => if argv.take 3 = ["docker", "compose", "up"] then upResult else (none, ""),
    trace := [], stdout := [] }

/-- A world with an empty filesystem whose upstream server serves `body`. -/
def worldServing (body : TarStream) : World := worldOf FS.empty body (none, "")

/-- The archive of the scenario: directory `app/`, then the file
`app/main.sh` with mode `0755` and content `echo hi`. -/
def scenarioArchive : TarStream :=
  { items := [ { header := some { Name := "app/", Typeflag := TypeDir, Mode := 0o755 },
                 data := "", copyErr := none },
               { header := some { Name := "app/main.sh", Typeflag := TypeReg, Mode := 0o755 },
                 data := "echo hi", copyErr := none } ],
    endErr := none }

/-- An archive whose second entry breaks off while it is read. -/
def brokenArchive : TarStream :=
  { items := [ { header := some { Name := "app/", Typeflag := TypeDir, Mode := 0o755 },
                 data := "", copyErr := none },
               { header := some { Name := "app/main.sh", Typeflag := TypeReg, Mode := 0o755 },
                 data := "echo", copyErr := some "unexpected EOF" },
               { header := some { Name := "app/README", Typeflag := TypeReg, Mode := 0o644 },
                 data := "readme", copyErr := none } ],
    endErr := none }

/-- An archive that names the same file twice. -/
def duplicateArchive : TarStream :=
  { items := [ { header := some { Name := "a", Typeflag := TypeReg, Mode := 0o644 },
                 data := "x", copyErr := none },
               { header := some { Name := "a", Typeflag := TypeReg, Mode := 0o644 },
                 data := "y", copyErr := none } ],
    endErr := none }

/-- An archive with an entry whose name climbs out of the destination. -/
def escapingArchive : TarStream :=
  { items := [ { header := some { Name := "../evil.sh", Typeflag := TypeReg, Mode := 0o755 },
                 data := "boom", copyErr := none } ],
    endErr := none }

/-- A world whose configuration directory is readable and holds the values of
`cfgAtStart`. -/
def worldIdle : World :=
  worldOf (configFiles "/srv/app\n" "src.example:8080\n" "pw\n" "S1\n") scenarioArchive (none, "")

/-- The world after the operator has rotated all four values in the
configuration directory. -/
def worldRotated : World :=
  worldOf (configFiles "/srv/app2\n" "src2.example:8080\n" "pw2\n" "S2\n") scenarioArchive (none, "")

/-- A world with a readable configuration directory whose upstream server
serves `brokenArchive`. -/
def worldBrokenFetch : World :=
  worldOf (configFiles "/srv/app\n" "src.example:8080\n" "pw\n" "S1\n") brokenArchive (none, "")

/-- A world with a readable configuration directory in which
`docker compose up` exits with status 1 and output `no such file`. -/
def worldUpFails : World :=
  worldOf (configFiles "/srv/app\n" "src.example:8080\n" "pw\n" "S1\n") scenarioArchive
    (some "exit status 1", "no such file")

/-! ## Lemmas: paths -/

/-- Containment is reflexive. -/
theorem under_refl (p : Path) : Path.under p p := ⟨rfl, rfl, List.prefix_refl _⟩

/-- Containment is transitive. -/
theorem under_trans {a b c : Path} (h1 : Path.under a b) (h2 : Path.under b c) :
    Path.under a c :=
  ⟨h1.1.trans h2.1, h1.2.1.trans h2.2.1, h1.2.2.trans h2.2.2⟩

/-- Unfolding of `splitSlash` on a non-empty string. -/
theorem splitSlash_cons (c : Char) (cs : List Char) :
    splitSlash (c :: cs) =
      if c = '/' then [] :: splitSlash cs
      else
        match splitSlash cs with
        | [] => [[c]]
        | h :: t => (c :: h) :: t := rfl

/-- Splitting never yields the empty list. -/
theorem splitSlash_ne_nil (cs : List Char) : splitSlash cs ≠ [] := by
  cases cs with
  | nil => simp [splitSlash]
  | cons c cs =>
    unfold splitSlash
    split_ifs
    · simp
    · split <;> simp

/-- Splitting `a/b` gives the elements of `a` followed by those of `b`. -/
theorem splitSlash_append (a b : List Char) :
    splitSlash (a ++ '/' :: b) = splitSlash a ++ splitSlash b := by
  induction a with
  | nil => simp [splitSlash]
  | cons c a ih =>
    simp only [List.cons_append]
    rw [splitSlash_cons, splitSlash_cons c a, ih]
    by_cases hc : c = '/'
    · simp [hc]
    · simp only [hc, if_false]
      cases hs : splitSlash a with
      | nil => exact absurd hs (splitSlash_ne_nil a)
      | cons h t => simp

/-- Cleaning elements none of which is `..` only extends the path. -/
theorem foldl_cleanStep_under (es : List (List Char)) (hes : ['.', '.'] ∉ es) :
    ∀ p : Path, Path.under p (es.foldl cleanStep p) := by
  induction es with
  | nil => intro p; exact under_refl p
  | cons e es ih =>
    intro p
    have he : e ≠ ['.', '.'] := fun h => hes (by simp [h])
    have hrest : ['.', '.'] ∉ es := fun h => hes (List.mem_cons_of_mem _ h)
    simp only [List.foldl_cons]
    refine under_trans ?_ (ih hrest (cleanStep p e))
    unfold cleanStep
    split_ifs
    · exact under_refl p
    · exact ⟨rfl, rfl, List.prefix_append _ _⟩

/-- A name without a `..` element, joined onto a non-empty destination,
resolves to a path inside the destination. -/
theorem Join_inside (dst name : String) (hdst : dst ≠ "")
    (hname : ['.', '.'] ∉ splitSlash name.toList) :
    ∃ p, Join dst name = some p ∧ Path.under (Clean dst) p := by
  have hd : dst.toList ≠ [] := by
    intro h
    apply hdst
    cases dst with
    | mk data => simp at h; subst h; rfl
  refine ⟨Clean (dst ++ "/" ++ name), by simp [Join, hdst], ?_⟩
  have hl : (dst ++ "/" ++ name).toList = dst.toList ++ '/' :: name.toList := by
    simp [String.toList]
  have hi : cleanInit (dst.toList ++ '/' :: name.toList) = cleanInit dst.toList := by
    unfold cleanInit
    cases hdl : dst.toList with
    | nil => exact absurd hdl hd
    | cons c cs => simp
  unfold Clean
  rw [hl, splitSlash_append, List.foldl_append, hi]
  exact foldl_cleanStep_under _ hname _

/-! ## Lemmas: filesystem calls -/

/-- A path at which `stat` finds nothing has a named element. -/
theorem stat_none_elems {fs : FS} {p : Path} (h : stat fs p = none) : p.elems ≠ [] := by
  intro he
  simp [stat, he] at h

/-- Storing a node at a path with a named element changes `stat` there only. -/
theorem stat_set (fs : FS) (p : Path) (n : Node) (hp : p.elems ≠ []) (q : Path) :
    stat (fs.set p n) q = if q = p then some n else stat fs q := by
  unfold stat FS.set
  by_cases hq : q = p
  · subst hq
    cases he : q.elems with
    | nil => exact absurd he hp
    | cons a l => simp
  · cases he : q.elems with
    | nil => simp [hq]
    | cons a l => simp [hq]

/-- The file content at `q` depends on `stat` only. -/
theorem fileAt_congr {fs fs1 : FS} {q : Path} (h : stat fs1 q = stat fs q) :
    fileAt fs1 q = fileAt fs q := by
  unfold fileAt; rw [h]

/-- Whether `q` is a directory depends on `stat` only. -/
theorem dirAt_congr {fs fs1 : FS} {q : Path} (h : stat fs1 q = stat fs q) :
    dirAt fs1 q = dirAt fs q := by
  unfold dirAt; rw [h]

/-- A successful `Mkdir` stores a new directory where nothing was. -/
theorem Mkdir_ok {fs fs1 : FS} {u : Nat} {p : Path} {perm : Nat}
    (h : Mkdir fs u p perm = .ok fs1) :
    stat fs p = none ∧ fs1 = fs.set p (Node.dir (applyUmask u perm)) := by
  unfold Mkdir at h
  split at h
  · simp at h
  · rename_i hs
    split at h
    · simp at h
    · simp at h
    · simp at h
      exact ⟨hs, h.symm⟩

/-- Nothing created is a growth. -/
theorem Grow_refl (fs : FS) (t : Path) : Grow fs fs t := fun _ => Or.inl rfl

/-- Growth towards `t1` followed by growth towards `t2`, with `t1` at or above `t2`, is growth towards `t2`. -/
theorem Grow_trans {fs fs1 fs2 : FS} {t1 t2 : Path} (h1 : Grow fs fs1 t1) (h2 : Grow fs1 fs2 t2)
    (ht : Path.under t1 t2) : Grow fs fs2 t2 := by
  intro q
  rcases h2 q with e2 | ⟨n2, d2, u2⟩
  · rcases h1 q with e1 | ⟨n1, d1, u1⟩
    · exact Or.inl (e2.trans e1)
    · exact Or.inr ⟨n1, by rw [e2]; exact d1, under_trans u1 ht⟩
  · rcases h1 q with e1 | ⟨n1, d1, u1⟩
    · exact Or.inr ⟨by rw [← e1]; exact n2, d2, u2⟩
    · rcases d1 with ⟨m, hm⟩
      rw [hm] at n2
      simp at n2

/-- Growth leaves file contents as they were. -/
theorem Grow_fileAt {fs fs1 : FS} {t : Path} (g : Grow fs fs1 t) (q : Path) :
    fileAt fs1 q = fileAt fs q := by
  unfold fileAt
  rcases g q with e | ⟨n, ⟨m, d⟩, _⟩
  · rw [e]
  · rw [n, d]

/-- Growth keeps directories. -/
theorem Grow_dirAt {fs fs1 : FS} {t : Path} (g : Grow fs fs1 t) (q : Path)
    (h : dirAt fs q = true) : dirAt fs1 q = true := by
  unfold dirAt at h ⊢
  rcases g q with e | ⟨n, ⟨m, d⟩, _⟩
  · rw [e]; exact h
  · rw [d]

/-- Growth towards the parent of `p` is growth towards `p`. -/
theorem Grow_Dir_some {fs fs1 : FS} {p : Path} (g : Grow fs fs1 (Dir (some p))) :
    Grow fs fs1 p := by
  intro q
  rcases g q with e | ⟨n, d, u⟩
  · exact Or.inl e
  · refine Or.inr ⟨n, d, ?_⟩
    have hq := stat_none_elems n
    cases hp : p.elems with
    | nil =>
      have : q.elems <+: [] := by simpa [Dir, hp] using u.2.2
      exact absurd (List.prefix_nil.mp this) hq
    | cons a l =>
      have h1 : q.rooted = p.rooted := by simpa [Dir, hp] using u.1
      have h2 : q.ups = p.ups := by simpa [Dir, hp] using u.2.1
      have h3 : q.elems <+: (a :: l).dropLast := by simpa [Dir, hp] using u.2.2
      refine ⟨h1, h2, ?_⟩
      rw [hp]
      exact h3.trans (List.dropLast_prefix _)

/-- Growth towards `.` changes nothing `stat` can see. -/
theorem Grow_Dir_none {fs fs1 : FS} (g : Grow fs fs1 (Dir none)) (q : Path) :
    stat fs1 q = stat fs q := by
  rcases g q with e | ⟨n, _, u⟩
  · exact e
  · have hq := stat_none_elems n
    have : q.elems <+: [] := u.2.2
    exact absurd (List.prefix_nil.mp this) hq

/-- A successful `mkdirAllRev` is a growth towards its path, which is a directory afterwards. -/
theorem mkdirAllRev_ok (u : Nat) (r : Bool) (k : Nat) (perm : Nat) :
    ∀ (rev : List String) (fs fs1 : FS), mkdirAllRev u r k perm rev fs = .ok fs1 →
      Grow fs fs1 ⟨r, k, rev.reverse⟩ ∧ dirAt fs1 ⟨r, k, rev.reverse⟩ = true := by
  intro rev
  induction rev with
  | nil =>
    intro fs fs1 h
    simp [mkdirAllRev] at h
    subst h
    exact ⟨Grow_refl _ _, by simp [dirAt, stat]⟩
  | cons e rest ih =>
    intro fs fs1 h
    unfold mkdirAllRev at h
    simp only at h
    split at h
    · rename_i m hs
      simp at h
      subst h
      exact ⟨Grow_refl _ _, by unfold dirAt; rw [hs]⟩
    · simp at h
    · rename_i hs
      split at h
      · simp at h
      · rename_i fsa ha
        obtain ⟨ga, _⟩ := ih fs fsa ha
        have hpre : Path.under ⟨r, k, rest.reverse⟩ ⟨r, k, (e :: rest).reverse⟩ :=
          ⟨rfl, rfl, by simp⟩
        split at h
        · rename_i fsb hb
          simp at h
          subst h
          obtain ⟨hn, hset⟩ := Mkdir_ok hb
          have hne : (Path.mk r k (e :: rest).reverse).elems ≠ [] := by simp
          subst hset
          refine ⟨Grow_trans ga ?_ hpre, by unfold dirAt; rw [stat_set _ _ _ hne, if_pos rfl]⟩
          intro q
          rw [stat_set _ _ _ hne]
          by_cases hq : q = ⟨r, k, (e :: rest).reverse⟩
          · subst hq
            exact Or.inr ⟨hn, ⟨_, by rw [if_pos rfl]⟩, under_refl _⟩
          · exact Or.inl (by rw [if_neg hq])
        · rename_i msg hb
          split at h
          · rename_i m hd
            simp at h
            subst h
            exact ⟨Grow_trans ga (Grow_refl _ _) hpre, by unfold dirAt; rw [hd]⟩
          · simp at h

/-- A successful `MkdirAll` is a growth towards its path, which is a directory afterwards. -/
theorem MkdirAll_ok {fs fs1 : FS} {u : Nat} {p : Path} {perm : Nat}
    (h : MkdirAll fs u p perm = .ok fs1) : Grow fs fs1 p ∧ dirAt fs1 p = true := by
  have := mkdirAllRev_ok u p.rooted p.ups perm p.elems.reverse fs fs1 h
  simpa using this

/-- A successful `Create` stores a file with the given content at a path that has a named element and was not a directory. -/
theorem Create_ok {fs fs1 : FS} {u : Nat} {p : Path} {d : String}
    (h : Create fs u p d = .ok fs1) :
    p.elems ≠ [] ∧ dirAt fs p = false ∧ ∃ m, fs1 = fs.set p (Node.file m d) := by
  unfold Create at h
  split at h
  · simp at h
  · rename_i perm c hs
    simp at h
    refine ⟨?_, by simp [dirAt, hs], perm, h.symm⟩
    intro he
    simp [stat, he] at hs
  · rename_i hs
    split at h
    · simp at h
    · simp at h
    · simp at h
      exact ⟨stat_none_elems hs, by simp [dirAt, hs], _, h.symm⟩

/-- File contents after a file has been stored at `p`. -/
theorem fileAt_set_file (fs : FS) (p : Path) (m : Nat) (d : String) (hp : p.elems ≠ [])
    (q : Path) : fileAt (fs.set p (Node.file m d)) q = if q = p then some d else fileAt fs q := by
  unfold fileAt
  rw [stat_set _ _ _ hp]
  by_cases hq : q = p
  · simp [hq]
  · simp [hq]

/-- Storing a file where no directory was keeps all directories. -/
theorem dirAt_set_file (fs : FS) (p : Path) (m : Nat) (d : String) (hp : p.elems ≠ [])
    (hnd : dirAt fs p = false) (q : Path) (h : dirAt fs q = true) :
    dirAt (fs.set p (Node.file m d)) q = true := by
  have hq : q ≠ p := by
    intro e
    rw [e, hnd] at h
    exact absurd h (by simp)
  unfold dirAt at h ⊢
  rw [stat_set _ _ _ hp, if_neg hq]
  exact h

/-- Masking with a nine-bit value only looks at the low nine bits of the other
operand. -/
theorem land_mod_512 (a u : Nat) (ha : a < 512) : a &&& u = a &&& (u % 512) := by
  have h1 : a &&& 511 = a := by
    have h := Nat.and_pow_two_sub_one_eq_mod a 9
    simp at h
    rw [h]
    exact Nat.mod_eq_of_lt ha
  have h2 : 511 &&& u = u % 512 := by
    have h := Nat.and_pow_two_sub_one_eq_mod u 9
    simp at h
    rw [Nat.land_comm]
    exact h
  calc a &&& u = (a &&& 511) &&& u := by rw [h1]
    _ = a &&& (511 &&& u) := Nat.land_assoc _ _ _
    _ = a &&& (u % 512) := by rw [h2]

set_option maxRecDepth 100000 in
/-- Mode `0666` minus any nine-bit mask has no execute bit. -/
theorem no_exec_512 : ∀ v < 512, (438 - (438 &&& v)) &&& 73 = 0 := by decide

/-- Whatever the umask, the mode `os.Create` gives a new file has no execute
bit. -/
theorem applyUmask_create_no_exec (u : Nat) : applyUmask u 0o666 &&& 0o111 = 0 := by
  unfold applyUmask
  have h : (0o666 % 512 : Nat) = 438 := by decide
  rw [h, land_mod_512 438 u (by decide)]
  exact no_exec_512 (u % 512) (Nat.mod_lt _ (by decide))

/-- A file `Create` makes where `stat` found nothing has mode `0666` minus the
umask. -/
theorem Create_new_mode {fs fs1 : FS} {u : Nat} {p : Path} {d : String}
    (hn : stat fs p = none) (h : Create fs u p d = .ok fs1) :
    fs1 p = some (Node.file (applyUmask u 0o666) d) := by
  unfold Create at h
  rw [hn] at h
  simp only at h
  split at h
  · simp at h
  · simp at h
  · simp only [Except.ok.injEq] at h
    rw [← h]
    simp [FS.set]

/-- A path that resolves resolves to its `filepath.Clean` form. -/
theorem walk_found (fs : FS) :
    ∀ (es : List (List Char)) (cur p : Path), walk fs cur es = .found p →
      p = es.foldl cleanStep cur := by
  intro es
  induction es with
  | nil =>
    intro cur p h
    simp only [walk, Lookup.found.injEq] at h
    exact h.symm
  | cons e es ih =>
    intro cur p h
    unfold walk at h
    split at h
    · simp at h
    · simp at h
    · exact ih _ _ h

/-- After a successful `RemoveAll` of a non-empty path either a directory on
the way to it was missing and nothing has changed, or nothing is left at or
below the path: the destination of the fetch that follows is empty. -/
theorem RemoveAll_empties {fs fs1 : FS} {s : String} (hs : s ≠ "")
    (h : RemoveAll fs s = (fs1, none)) :
    (walk fs (cleanInit s.toList) (splitSlash s.toList) = .missing ∧ fs1 = fs) ∨
    ∀ q, Path.under (Clean s) q → fs1 q = none := by
  unfold RemoveAll at h
  rw [if_neg hs] at h
  by_cases hdot : endsWithDot s = true
  · rw [if_pos hdot] at h
    simp at h
  · rw [if_neg hdot] at h
    cases hw : walk fs (cleanInit s.toList) (splitSlash s.toList) with
    | missing =>
      rw [hw] at h
      simp only [Prod.mk.injEq, and_true] at h
      exact Or.inl ⟨rfl, h.symm⟩
    | notDir =>
      rw [hw] at h
      simp at h
    | found d =>
      rw [hw] at h
      have hc : d = Clean s := walk_found fs _ _ _ hw
      simp only at h
      by_cases h1 : d.elems = []
      · rw [if_pos h1] at h
        simp at h
      · rw [if_neg h1] at h
        by_cases h2 : (splitSlash s.toList).getLast? = some ['.', '.']
        · rw [if_pos h2] at h
          simp at h
        · rw [if_neg h2] at h
          simp only [Prod.mk.injEq, and_true] at h
          right
          intro q hq
          rw [← h]
          rw [← hc] at hq
          simp [hq]

/-! ## Lemmas: one iteration of the unpacking loop -/

/-- The two type flags differ. -/
theorem TypeDir_ne_TypeReg : TypeDir ≠ TypeReg := by decide

/-- An entry that is not a regular file writes nothing. -/
theorem itemWrite_of_not_reg {dst : String} {it : TarItem} {hd : Header}
    (hh : it.header = some hd) (ht : hd.Typeflag ≠ TypeReg) (q : Path) :
    itemWrite dst it q = none := by
  simp [itemWrite, hh, ht]

/-- A regular-file entry writes its data at the path its name resolves to, and nowhere else. -/
theorem itemWrite_of_reg {dst : String} {it : TarItem} {hd : Header} {p : Path}
    (hh : it.header = some hd) (ht : hd.Typeflag = TypeReg) (hj : Join dst hd.Name = some p)
    (q : Path) : itemWrite dst it q = if q = p then some it.data else none := by
  simp only [itemWrite, hh, ht, hj, true_and, Option.some.injEq]
  by_cases hq : q = p
  · simp [hq]
  · have : ¬ p = q := fun e => hq e.symm
    simp [hq, this]

/-- Only a regular-file entry whose name resolves to `q` writes at `q`, and it writes its data. -/
theorem itemWrite_some {dst : String} {it : TarItem} {q : Path} {s : String}
    (h : itemWrite dst it q = some s) :
    ∃ hd, it.header = some hd ∧ hd.Typeflag = TypeReg ∧ Join dst hd.Name = some q ∧
      it.data = s := by
  unfold itemWrite at h
  split at h
  · simp at h
  · rename_i hd hh
    split_ifs at h with hc
    simp only [Option.some.injEq] at h
    exact ⟨hd, hh, hc.1, hc.2, h⟩

/-- What one loop iteration does to the filesystem.  Either nothing a `stat`
can see (and then, if the iteration succeeded, the entry has a nil header or
is neither a directory nor a regular file), or the entry has a header whose
name resolves to `p`, missing directories down to `p` have been made, and
then either that is all (on success: `p` is a directory for a directory
entry, and the entry is of another type otherwise) or the entry is a regular
file and its data has been stored at `p`, which was not a directory. -/
theorem extractItem_cases {dst : String} {w w1 : World} {it : TarItem} {eo : Option String}
    (h : extractItem dst w it = (w1, eo)) :
    ((∀ q, stat w1.fs q = stat w.fs q) ∧
      (eo = none → it.header = none ∨
        ∃ hd, it.header = some hd ∧ hd.Typeflag ≠ TypeDir ∧ hd.Typeflag ≠ TypeReg)) ∨
    ∃ hd p fsm, it.header = some hd ∧ Join dst hd.Name = some p ∧ Grow w.fs fsm p ∧
      ((w1.fs = fsm ∧
          (eo = none → (hd.Typeflag = TypeDir ∧ dirAt fsm p = true) ∨
            (hd.Typeflag ≠ TypeDir ∧ hd.Typeflag ≠ TypeReg))) ∨
        (hd.Typeflag = TypeReg ∧ p.elems ≠ [] ∧ dirAt fsm p = false ∧
          (eo = none → it.copyErr = none) ∧
          ∃ m, w1.fs = fsm.set p (Node.file m it.data))) := by
  unfold extractItem at h
  split at h
  · rename_i hh
    simp only [Prod.mk.injEq] at h
    obtain ⟨rfl, rfl⟩ := h
    exact Or.inl ⟨fun _ => rfl, fun _ => Or.inl hh⟩
  · rename_i hd hh
    simp only at h
    split at h
    · simp only [Prod.mk.injEq] at h
      obtain ⟨rfl, rfl⟩ := h
      exact Or.inl ⟨fun _ => rfl, fun hn => by simp at hn⟩
    · rename_i fs1 hm
      obtain ⟨g1, _⟩ := MkdirAll_ok hm
      cases hj : Join dst hd.Name with
      | none =>
        rw [hj] at g1 h
        have hstat := Grow_Dir_none g1
        left
        split_ifs at h with hdir hreg
        · simp only [Prod.mk.injEq] at h
          obtain ⟨rfl, rfl⟩ := h
          exact ⟨hstat, fun hn => by simp at hn⟩
        · simp only [Prod.mk.injEq] at h
          obtain ⟨rfl, rfl⟩ := h
          exact ⟨hstat, fun hn => by simp at hn⟩
        · simp only [Prod.mk.injEq] at h
          obtain ⟨rfl, rfl⟩ := h
          exact ⟨hstat, fun _ => Or.inr ⟨hd, hh, hdir, hreg⟩⟩
      | some p =>
        rw [hj] at g1 h
        have g := Grow_Dir_some g1
        right
        split_ifs at h with hdir hreg
        · simp only at h
          split at h
          · simp only [Prod.mk.injEq] at h
            obtain ⟨rfl, rfl⟩ := h
            exact ⟨hd, p, fs1, hh, hj, g, Or.inl ⟨rfl, fun hn => by simp at hn⟩⟩
          · rename_i fs2 hm2
            simp only [Prod.mk.injEq] at h
            obtain ⟨rfl, rfl⟩ := h
            obtain ⟨g2, d2⟩ := MkdirAll_ok hm2
            exact ⟨hd, p, fs2, hh, hj, Grow_trans g g2 (under_refl p),
              Or.inl ⟨rfl, fun _ => Or.inl ⟨hdir, d2⟩⟩⟩
        · simp only at h
          split at h
          · simp only [Prod.mk.injEq] at h
            obtain ⟨rfl, rfl⟩ := h
            exact ⟨hd, p, fs1, hh, hj, g, Or.inl ⟨rfl, fun hn => by simp at hn⟩⟩
          · rename_i fs2 hc
            simp only [Prod.mk.injEq] at h
            obtain ⟨rfl, rfl⟩ := h
            obtain ⟨hp, hnd, m, hset⟩ := Create_ok hc
            exact ⟨hd, p, fs1, hh, hj, g, Or.inr ⟨hreg, hp, hnd, fun hn => hn, m, hset⟩⟩
        · simp only [Prod.mk.injEq] at h
          obtain ⟨rfl, rfl⟩ := h
          exact ⟨hd, p, fs1, hh, hj, g, Or.inl ⟨rfl, fun _ => Or.inr ⟨hdir, hreg⟩⟩⟩

/-- A successful iteration leaves at every path the bytes the entry writes
there, and otherwise the file content that was there before. -/
theorem extractItem_fileAt {dst : String} {w w1 : World} {it : TarItem}
    (h : extractItem dst w it = (w1, none)) (q : Path) :
    fileAt w1.fs q =
      match itemWrite dst it q with
      | some s => some s
      | none => fileAt w.fs q := by
  rcases extractItem_cases h with ⟨hs, hk⟩ | ⟨hd, p, fsm, hh, hj, g, hc⟩
  · rcases hk rfl with hn | ⟨hd, hh, _, hr⟩
    · simp [itemWrite, hn, fileAt_congr (hs q)]
    · rw [itemWrite_of_not_reg hh hr]
      exact fileAt_congr (hs q)
  · rcases hc with ⟨he, hk⟩ | ⟨hr, hp, _, _, m, hset⟩
    · have hr : hd.Typeflag ≠ TypeReg := by
        rcases hk rfl with ⟨hdir, _⟩ | ⟨_, hr⟩
        · rw [hdir]; exact TypeDir_ne_TypeReg
        · exact hr
      rw [itemWrite_of_not_reg hh hr, he]
      exact Grow_fileAt g q
    · rw [itemWrite_of_reg hh hr hj, hset, fileAt_set_file _ _ _ _ hp]
      by_cases hq : q = p
      · simp [hq]
      · simp [hq, Grow_fileAt g q]

/-- An iteration never removes a directory or replaces it by a file. -/
theorem extractItem_dirAt {dst : String} {w w1 : World} {it : TarItem} {eo : Option String}
    (h : extractItem dst w it = (w1, eo)) (q : Path) (hq : dirAt w.fs q = true) :
    dirAt w1.fs q = true := by
  rcases extractItem_cases h with ⟨hs, _⟩ | ⟨hd, p, fsm, _, _, g, hc⟩
  · rw [dirAt_congr (hs q)]; exact hq
  · rcases hc with ⟨he, _⟩ | ⟨_, hp, hnd, _, m, hset⟩
    · rw [he]; exact Grow_dirAt g q hq
    · rw [hset]
      exact dirAt_set_file _ _ _ _ hp hnd q (Grow_dirAt g q hq)

/-- After a successful iteration on a directory entry the entry's path is a
directory. -/
theorem extractItem_dir_made {dst : String} {w w1 : World} {it : TarItem} {hd : Header}
    (h : extractItem dst w it = (w1, none)) (hh : it.header = some hd)
    (ht : hd.Typeflag = TypeDir) :
    ∃ p, Join dst hd.Name = some p ∧ dirAt w1.fs p = true := by
  rcases extractItem_cases h with ⟨_, hk⟩ | ⟨hd1, p, fsm, hh1, hj, _, hc⟩
  · rcases hk rfl with hn | ⟨hd1, hh1, hnd, _⟩
    · rw [hn] at hh; simp at hh
    · rw [hh1] at hh
      simp only [Option.some.injEq] at hh
      subst hh
      exact absurd ht hnd
  · rw [hh1] at hh
    simp only [Option.some.injEq] at hh
    subst hh
    rcases hc with ⟨he, hk⟩ | ⟨hr, _, _, _, _, _⟩
    · rcases hk rfl with ⟨_, hdir⟩ | ⟨hnd, _⟩
      · exact ⟨p, hj, by rw [he]; exact hdir⟩
      · exact absurd ht hnd
    · rw [ht] at hr
      exact absurd hr TypeDir_ne_TypeReg

/-- An iteration changes the filesystem only on the way to the path the
entry's name resolves to: apart from that path itself, at paths above it that
held nothing and are directories afterwards. -/
theorem extractItem_frame {dst : String} {w w1 : World} {it : TarItem} {eo : Option String}
    (h : extractItem dst w it = (w1, eo)) (q : Path) :
    stat w1.fs q = stat w.fs q ∨
    ∃ hd p, it.header = some hd ∧ Join dst hd.Name = some p ∧ Path.under q p ∧
      (q = p ∨ (stat w.fs q = none ∧ ∃ m, stat w1.fs q = some (Node.dir m))) := by
  rcases extractItem_cases h with ⟨hs, _⟩ | ⟨hd, p, fsm, hh, hj, g, hc⟩
  · exact Or.inl (hs q)
  · rcases hc with ⟨he, _⟩ | ⟨_, hp, _, _, m, hset⟩
    · rcases g q with e | ⟨n, d, u⟩
      · exact Or.inl (by rw [he]; exact e)
      · exact Or.inr ⟨hd, p, hh, hj, u, Or.inr ⟨n, by rw [he]; exact d⟩⟩
    · by_cases hq : q = p
      · exact Or.inr ⟨hd, p, hh, hj, by rw [hq]; exact under_refl p, Or.inl hq⟩
      · rcases g q with e | ⟨n, d, u⟩
        · exact Or.inl (by rw [hset, stat_set _ _ _ hp, if_neg hq]; exact e)
        · exact Or.inr ⟨hd, p, hh, hj, u,
            Or.inr ⟨n, by rw [hset, stat_set _ _ _ hp, if_neg hq]; exact d⟩⟩

/-! ## Lemmas: the unpacking loop and the fetch -/

/-- Bytes the archive leaves at `q` are written by one of its entries. -/
theorem written_mem (dst : String) (q : Path) (s : String) :
    ∀ items : List TarItem, written dst items q = some s →
      ∃ it ∈ items, itemWrite dst it q = some s := by
  intro items
  induction items with
  | nil => intro h; simp [written] at h
  | cons it rest ih =>
    intro h
    have hw : written dst (it :: rest) q =
        match written dst rest q with
        | some s => some s
        | none => itemWrite dst it q := rfl
    rw [hw] at h
    cases hr : written dst rest q with
    | none =>
      rw [hr] at h
      exact ⟨it, List.mem_cons_self _ _, h⟩
    | some s1 =>
      rw [hr] at h
      simp only [Option.some.injEq] at h
      subst h
      obtain ⟨jt, hj, hjw⟩ := ih hr
      exact ⟨jt, List.mem_cons_of_mem _ hj, hjw⟩

/-- If an entry writes at `q`, the archive leaves bytes at `q`. -/
theorem written_of_mem (dst : String) (q : Path) :
    ∀ items : List TarItem, ∀ it ∈ items, ∀ s, itemWrite dst it q = some s →
      ∃ s1, written dst items q = some s1 := by
  intro items
  induction items with
  | nil => intro it hit; simp at hit
  | cons jt rest ih =>
    intro it hit s hs
    have hw : written dst (jt :: rest) q =
        match written dst rest q with
        | some s => some s
        | none => itemWrite dst jt q := rfl
    rw [hw]
    cases hr : written dst rest q with
    | some s1 => exact ⟨s1, rfl⟩
    | none =>
      rcases List.mem_cons.mp hit with rfl | hmem
      · exact ⟨s, hs⟩
      · obtain ⟨s1, h1⟩ := ih it hmem s hs
        rw [hr] at h1
        simp at h1

/-- Entries that do not write at `q` leave nothing there. -/
theorem written_none (dst : String) (q : Path) :
    ∀ items : List TarItem, (∀ jt ∈ items, itemWrite dst jt q = none) →
      written dst items q = none := by
  intro items
  induction items with
  | nil => intro _; rfl
  | cons it rest ih =>
    intro h
    have hw : written dst (it :: rest) q =
        match written dst rest q with
        | some s => some s
        | none => itemWrite dst it q := rfl
    rw [hw, ih (fun jt hj => h jt (List.mem_cons_of_mem _ hj))]
    exact h it (List.mem_cons_self _ _)

/-- Of two parts of an archive the later one decides, when it writes at `q`. -/
theorem written_append (dst : String) (q : Path) (post : List TarItem) :
    ∀ pre : List TarItem, written dst (pre ++ post) q =
      match written dst post q with
      | some s => some s
      | none => written dst pre q := by
  intro pre
  induction pre with
  | nil =>
    simp only [List.nil_append]
    cases written dst post q <;> rfl
  | cons it rest ih =>
    have hw : ∀ l, written dst (it :: l) q =
        match written dst l q with
        | some s => some s
        | none => itemWrite dst it q := fun _ => rfl
    simp only [List.cons_append]
    rw [hw, ih, hw]
    cases written dst post q with
    | none => rfl
    | some s => rfl

/-- The entry that is the last one to write at `q` decides the bytes there. -/
theorem written_last (dst : String) (q : Path) (pre post : List TarItem) (it : TarItem)
    (s : String) (hit : itemWrite dst it q = some s)
    (hpost : ∀ jt ∈ post, itemWrite dst jt q = none) :
    written dst (pre ++ it :: post) q = some s := by
  rw [written_append]
  have hw : written dst (it :: post) q =
      match written dst post q with
      | some s => some s
      | none => itemWrite dst it q := rfl
  rw [hw, written_none dst q post hpost, hit]

/-- After a successful run of the loop every path holds the bytes the archive
leaves there, and otherwise the file content it had before. -/
theorem extractAll_fileAt (dst : String) (endErr : Option String) :
    ∀ (items : List TarItem) (w w1 : World), extractAll dst items endErr w = (w1, none) →
      ∀ q, fileAt w1.fs q =
        match written dst items q with
        | some s => some s
        | none => fileAt w.fs q := by
  intro items
  induction items with
  | nil =>
    intro w w1 h q
    simp only [extractAll, Prod.mk.injEq] at h
    rw [← h.1]
    rfl
  | cons it rest ih =>
    intro w w1 h q
    unfold extractAll at h
    split at h
    · simp at h
    · rename_i wa ha
      rw [ih wa w1 h q, extractItem_fileAt ha q]
      have hw : written dst (it :: rest) q =
          match written dst rest q with
          | some s => some s
          | none => itemWrite dst it q := rfl
      rw [hw]
      cases written dst rest q <;> rfl

/-- The loop never removes a directory or replaces it by a file. -/
theorem extractAll_dirAt (dst : String) (endErr : Option String) :
    ∀ (items : List TarItem) (w w1 : World) (eo : Option String),
      extractAll dst items endErr w = (w1, eo) →
      ∀ q, dirAt w.fs q = true → dirAt w1.fs q = true := by
  intro items
  induction items with
  | nil =>
    intro w w1 eo h q hq
    simp only [extractAll, Prod.mk.injEq] at h
    rw [← h.1]
    exact hq
  | cons it rest ih =>
    intro w w1 eo h q hq
    unfold extractAll at h
    split at h
    · rename_i wa e ha
      simp only [Prod.mk.injEq] at h
      rw [← h.1]
      exact extractItem_dirAt ha q hq
    · rename_i wa ha
      exact ih wa w1 eo h q (extractItem_dirAt ha q hq)

/-- After a successful run of the loop the path of every directory entry is a
directory. -/
theorem extractAll_dirs_made (dst : String) (endErr : Option String) :
    ∀ (items : List TarItem) (w w1 : World), extractAll dst items endErr w = (w1, none) →
      ∀ it ∈ items, ∀ hd, it.header = some hd → hd.Typeflag = TypeDir →
        ∃ p, Join dst hd.Name = some p ∧ dirAt w1.fs p = true := by
  intro items
  induction items with
  | nil =>
    intro w w1 _ it hit
    simp at hit
  | cons jt rest ih =>
    intro w w1 h it hit hd hh ht
    unfold extractAll at h
    split at h
    · simp at h
    · rename_i wa ha
      rcases List.mem_cons.mp hit with rfl | hmem
      · obtain ⟨p, hj, hdir⟩ := extractItem_dir_made ha hh ht
        exact ⟨p, hj, extractAll_dirAt dst endErr rest wa w1 none h p hdir⟩
      · exact ih wa w1 h it hmem hd hh ht

/-- In a successful run of the loop the name of every regular-file entry
resolves to a path. -/
theorem extractAll_reg_resolves (dst : String) (endErr : Option String) :
    ∀ (items : List TarItem) (w w1 : World), extractAll dst items endErr w = (w1, none) →
      ∀ it ∈ items, ∀ hd, it.header = some hd → hd.Typeflag = TypeReg →
        ∃ p, Join dst hd.Name = some p := by
  intro items
  induction items with
  | nil => intro w w1 _ it hit; simp at hit
  | cons jt rest ih =>
    intro w w1 h it hit hd hh ht
    unfold extractAll at h
    split at h
    · simp at h
    · rename_i wa ha
      rcases List.mem_cons.mp hit with rfl | hmem
      · rcases extractItem_cases ha with ⟨_, hk⟩ | ⟨hd1, p, _, hh1, hj, _, _⟩
        · rcases hk rfl with hn | ⟨hd1, hh1, _, hnr⟩
          · rw [hn] at hh; simp at hh
          · rw [hh1] at hh
            simp only [Option.some.injEq] at hh
            subst hh
            exact absurd ht hnr
        · rw [hh1] at hh
          simp only [Option.some.injEq] at hh
          subst hh
          exact ⟨p, hj⟩
      · exact ih wa w1 h it hmem hd hh ht

/-- When every entry name resolves to a path inside `d`, the loop, however
it ends, leaves every path outside `d` as it was, except that missing
directories above `d` may have been made. -/
theorem extractAll_outside (dst : String) (d : Path) (endErr : Option String) :
    ∀ (items : List TarItem) (w w1 : World) (eo : Option String),
      (∀ it ∈ items, ∀ hd p, it.header = some hd → Join dst hd.Name = some p →
        Path.under d p) →
      extractAll dst items endErr w = (w1, eo) →
      ∀ q, ¬ Path.under d q →
        stat w1.fs q = stat w.fs q ∨
        (stat w.fs q = none ∧ (∃ m, stat w1.fs q = some (Node.dir m)) ∧ Path.under q d) := by
  intro items
  induction items with
  | nil =>
    intro w w1 eo _ h q _
    simp only [extractAll, Prod.mk.injEq] at h
    rw [← h.1]
    exact Or.inl rfl
  | cons it rest ih =>
    intro w w1 eo hin h q hq
    have step : ∀ wa eo1, extractItem dst w it = (wa, eo1) →
        stat wa.fs q = stat w.fs q ∨
        (stat w.fs q = none ∧ (∃ m, stat wa.fs q = some (Node.dir m)) ∧ Path.under q d) := by
      intro wa eo1 ha
      rcases extractItem_frame ha q with e | ⟨hd, p, hh, hj, u, hc⟩
      · exact Or.inl e
      · have hp : Path.under d p := hin it (List.mem_cons_self _ _) hd p hh hj
        rcases hc with rfl | ⟨n, dm⟩
        · exact absurd hp hq
        · refine Or.inr ⟨n, dm, u.1.trans hp.1.symm, u.2.1.trans hp.2.1.symm, ?_⟩
          rcases List.prefix_or_prefix_of_prefix u.2.2 hp.2.2 with h1 | h2
          · exact h1
          · exact absurd ⟨hp.1.trans u.1.symm, hp.2.1.trans u.2.1.symm, h2⟩ hq
    unfold extractAll at h
    split at h
    · rename_i wa e ha
      simp only [Prod.mk.injEq] at h
      rw [← h.1]
      exact step wa (some e) ha
    · rename_i wa ha
      have hrest := ih wa w1 eo (fun jt hj => hin jt (List.mem_cons_of_mem _ hj)) h q hq
      rcases step wa none ha with e1 | ⟨n1, ⟨m1, d1⟩, u1⟩
      · rcases hrest with e2 | ⟨n2, d2, u2⟩
        · exact Or.inl (e2.trans e1)
        · exact Or.inr ⟨by rw [← e1]; exact n2, d2, u2⟩
      · rcases hrest with e2 | ⟨n2, _, _⟩
        · exact Or.inr ⟨n1, ⟨m1, by rw [e2]; exact d1⟩, u1⟩
        · rw [d1] at n2
          simp at n2

/-- Entries after the first failing one are never looked at: when the
entries `pre` are unpacked without error and the next entry fails, the loop
ends in the world that entry left, with its error. -/
theorem extractAll_stops (dst : String) (endErr : Option String) (it : TarItem)
    (post : List TarItem) (e : String) :
    ∀ (pre : List TarItem) (w wa wb : World), extractAll dst pre none w = (wa, none) →
      extractItem dst wa it = (wb, some e) →
      extractAll dst (pre ++ it :: post) endErr w = (wb, some e) := by
  intro pre
  induction pre with
  | nil =>
    intro w wa wb h1 h2
    simp only [extractAll, Prod.mk.injEq] at h1
    obtain ⟨rfl, _⟩ := h1
    simp only [List.nil_append]
    unfold extractAll
    rw [h2]
  | cons jt rest ih =>
    intro w wa wb h1 h2
    unfold extractAll at h1
    simp only [List.cons_append]
    unfold extractAll
    split at h1
    · simp at h1
    · rename_i wc hc
      exact ih wc wa wb h1 h2

/-- The fetch either fails before the loop, with the filesystem untouched, or is the unpacking loop run on the body of the response. -/
theorem fetchLatestCode_cases {c : Config} {dst : String} {w w1 : World} {eo : Option String}
    (h : fetchLatestCode c dst w = (w1, eo)) :
    (w1.fs = w.fs ∧ eo ≠ none) ∨
    ∃ resp, w.roundTrip ("http://" ++ c.SourceServer) c.SourcePassword = .ok resp ∧
      extractAll dst resp.Body.items resp.Body.endErr
        { w with trace := w.trace ++
            [Action.get ("http://" ++ c.SourceServer) c.SourcePassword] } = (w1, eo) := by
  unfold fetchLatestCode at h
  simp only at h
  split at h
  · simp only [Prod.mk.injEq] at h
    obtain ⟨rfl, rfl⟩ := h
    exact Or.inl ⟨rfl, by simp⟩
  · split at h
    · simp only [Prod.mk.injEq] at h
      obtain ⟨rfl, rfl⟩ := h
      exact Or.inl ⟨rfl, by simp⟩
    · rename_i resp hrt
      split_ifs at h with hst
      · simp only [Prod.mk.injEq] at h
        obtain ⟨rfl, rfl⟩ := h
        exact Or.inl ⟨rfl, by simp⟩
      · exact Or.inr ⟨resp, hrt, h⟩

/-- An iteration of the unpacking loop performs no external action. -/
theorem extractItem_trace (dst : String) (w : World) (it : TarItem) :
    (extractItem dst w it).1.trace = w.trace := by
  unfold extractItem
  split
  · rfl
  · simp only
    split
    · rfl
    · split_ifs
      · split
        · rfl
        · split <;> rfl
      · split
        · rfl
        · split <;> rfl
      · rfl

/-- The unpacking loop performs no external action. -/
theorem extractAll_trace (dst : String) (endErr : Option String) :
    ∀ (items : List TarItem) (w : World),
      (extractAll dst items endErr w).1.trace = w.trace := by
  intro items
  induction items with
  | nil => intro w; rfl
  | cons it rest ih =>
    intro w
    unfold extractAll
    have ht := extractItem_trace dst w it
    rcases hx : extractItem dst w it with ⟨w1, eo⟩
    rw [hx] at ht
    cases eo with
    | some e => exact ht
    | none =>
      simp only
      rw [ih w1]
      exact ht

/-- The only external action of a fetch is the upstream request, if it gets
that far: no command is run. -/
theorem fetchLatestCode_trace (c : Config) (dst : String) (w : World) :
    (fetchLatestCode c dst w).1.trace = w.trace ∨
    (fetchLatestCode c dst w).1.trace =
      w.trace ++ [Action.get ("http://" ++ c.SourceServer) c.SourcePassword] := by
  unfold fetchLatestCode
  simp only
  split
  · exact Or.inl rfl
  · split
    · exact Or.inr rfl
    · split_ifs
      · exact Or.inr rfl
      · right
        rw [extractAll_trace]

/-- When every entry name of the served archive resolves inside `dst`, a
fetch changes nothing outside `dst` except for missing directories above
it. -/
theorem fetchLatestCode_outside (c : Config) (dst : String) (w : World)
    (hin : ∀ resp, w.roundTrip ("http://" ++ c.SourceServer) c.SourcePassword = .ok resp →
      ∀ it ∈ resp.Body.items, ∀ hd p, it.header = some hd → Join dst hd.Name = some p →
        Path.under (Clean dst) p)
    (q : Path) (hq : ¬ Path.under (Clean dst) q) :
    stat (fetchLatestCode c dst w).1.fs q = stat w.fs q ∨
    (stat w.fs q = none ∧
      (∃ m, stat (fetchLatestCode c dst w).1.fs q = some (Node.dir m)) ∧
      Path.under q (Clean dst)) := by
  rcases hf : fetchLatestCode c dst w with ⟨w1, eo⟩
  simp only
  rcases fetchLatestCode_cases hf with ⟨hfs, _⟩ | ⟨resp, hrt, hx⟩
  · exact Or.inl (by rw [hfs])
  · exact extractAll_outside dst (Clean dst) _ _ _ _ _ (hin resp hrt) hx q hq

/-- An archive none of whose entry names has a `..` element, fetched into a
non-empty destination, changes nothing outside the destination except for
missing directories above it. -/
theorem fetchLatestCode_outside_of_names (c : Config) (dst : String) (w : World)
    (hdst : dst ≠ "")
    (hnames : ∀ resp, w.roundTrip ("http://" ++ c.SourceServer) c.SourcePassword = .ok resp →
      ∀ it ∈ resp.Body.items, ∀ hd, it.header = some hd →
        ['.', '.'] ∉ splitSlash hd.Name.toList)
    (q : Path) (hq : ¬ Path.under (Clean dst) q) :
    stat (fetchLatestCode c dst w).1.fs q = stat w.fs q ∨
    (stat w.fs q = none ∧
      (∃ m, stat (fetchLatestCode c dst w).1.fs q = some (Node.dir m)) ∧
      Path.under q (Clean dst)) := by
  apply fetchLatestCode_outside c dst w _ q hq
  intro resp hrt it hit hd p hh hj
  obtain ⟨p1, hj1, hu⟩ := Join_inside dst hd.Name hdst (hnames resp hrt it hit hd hh)
  rw [hj] at hj1
  simp only [Option.some.injEq] at hj1
  rw [hj1]
  exact hu

/-- An iteration, however it ends, either leaves all file contents as they
were, or the entry is a regular file and its data is stored where its name
resolves to. -/
theorem extractItem_fileAt_any {dst : String} {w w1 : World} {it : TarItem}
    {eo : Option String} (h : extractItem dst w it = (w1, eo)) :
    (∀ q, fileAt w1.fs q = fileAt w.fs q) ∨
    ((∃ hd, it.header = some hd ∧ hd.Typeflag = TypeReg) ∧
      ∀ q, fileAt w1.fs q =
        match itemWrite dst it q with
        | some s => some s
        | none => fileAt w.fs q) := by
  rcases extractItem_cases h with ⟨hs, _⟩ | ⟨hd, p, fsm, hh, hj, g, hc⟩
  · exact Or.inl (fun q => fileAt_congr (hs q))
  · rcases hc with ⟨he, _⟩ | ⟨hr, hp, _, _, m, hset⟩
    · left
      intro q
      rw [he]
      exact Grow_fileAt g q
    · right
      refine ⟨⟨hd, hh, hr⟩, ?_⟩
      intro q
      rw [itemWrite_of_reg hh hr hj, hset, fileAt_set_file _ _ _ _ hp]
      by_cases hq : q = p
      · simp [hq]
      · simp [hq, Grow_fileAt g q]

/-- The loop, however it ends, has unpacked a first part of the entries, in
stream order, and nothing of the rest. -/
theorem extractAll_partial (dst : String) (endErr : Option String) :
    ∀ (items : List TarItem) (w w1 : World) (eo : Option String),
      extractAll dst items endErr w = (w1, eo) →
      ∃ done rest, items = done ++ rest ∧ UnpackedOnto dst done w.fs w1.fs := by
  intro items
  induction items with
  | nil =>
    intro w w1 eo h
    simp only [extractAll, Prod.mk.injEq] at h
    refine ⟨[], [], rfl, ?_, ?_⟩
    · intro q
      rw [← h.1]
      rfl
    · intro it hit
      simp at hit
  | cons it rest ih =>
    intro w w1 eo h
    unfold extractAll at h
    split at h
    · rename_i wa e ha
      simp only [Prod.mk.injEq] at h
      obtain ⟨hw, _⟩ := h
      subst hw
      rcases extractItem_fileAt_any ha with hsame | ⟨⟨hd, hh, hr⟩, hwr⟩
      · refine ⟨[], it :: rest, rfl, ?_, ?_⟩
        · intro q
          rw [hsame q]
          rfl
        · intro jt hjt
          simp at hjt
      · refine ⟨[it], rest, rfl, ?_, ?_⟩
        · intro q
          rw [hwr q]
          have hw1 : written dst [it] q = itemWrite dst it q := rfl
          rw [hw1]
        · intro jt hjt hd1 hh1 ht1
          simp only [List.mem_singleton] at hjt
          subst hjt
          rw [hh] at hh1
          simp only [Option.some.injEq] at hh1
          subst hh1
          rw [hr] at ht1
          exact absurd ht1.symm TypeDir_ne_TypeReg
    · rename_i wa ha
      obtain ⟨done, rest1, hsplit, hfiles, hdirs⟩ := ih wa w1 eo h
      refine ⟨it :: done, rest1, by rw [hsplit]; rfl, ?_, ?_⟩
      · intro q
        rw [hfiles q, extractItem_fileAt ha q]
        have hw1 : written dst (it :: done) q =
            match written dst done q with
            | some s => some s
            | none => itemWrite dst it q := rfl
        rw [hw1]
        cases written dst done q <;> rfl
      · intro jt hjt hd hh ht
        rcases List.mem_cons.mp hjt with rfl | hmem
        · obtain ⟨p, hj, hdir⟩ := extractItem_dir_made ha hh ht
          exact ⟨p, hj, extractAll_dirAt dst endErr rest wa w1 eo h p hdir⟩
        · exact hdirs jt hmem hd hh ht

/-- A fetch, however it ends, has unpacked a first part of the served
archive, in stream order, and nothing else. -/
theorem fetchLatestCode_partial (c : Config) (dst : String) (w : World) :
    ∃ done : List TarItem,
      (∀ resp, w.roundTrip ("http://" ++ c.SourceServer) c.SourcePassword = .ok resp →
        done <+: resp.Body.items) ∧
      UnpackedOnto dst done w.fs (fetchLatestCode c dst w).1.fs := by
  rcases hf : fetchLatestCode c dst w with ⟨w1, eo⟩
  simp only
  rcases fetchLatestCode_cases hf with ⟨hfs, _⟩ | ⟨resp, hrt, hx⟩
  · refine ⟨[], fun _ _ => List.nil_prefix, ?_, ?_⟩
    · intro q
      rw [hfs]
      rfl
    · intro it hit
      simp at hit
  · obtain ⟨done, rest, hsplit, hun⟩ := extractAll_partial dst _ _ _ _ _ hx
    refine ⟨done, ?_, hun⟩
    intro resp1 hrt1
    rw [hrt] at hrt1
    simp only [Except.ok.injEq] at hrt1
    subst hrt1
    rw [hsplit]
    exact List.prefix_append _ _

/-- An iteration of the unpacking loop leaves the command oracle alone. -/
theorem extractItem_run (dst : String) (w : World) (it : TarItem) :
    (extractItem dst w it).1.run = w.run := by
  unfold extractItem
  split
  · rfl
  · simp only
    split
    · rfl
    · split_ifs
      · split
        · rfl
        · split <;> rfl
      · split
        · rfl
        · split <;> rfl
      · rfl

/-- The unpacking loop leaves the command oracle alone. -/
theorem extractAll_run (dst : String) (endErr : Option String) :
    ∀ (items : List TarItem) (w : World),
      (extractAll dst items endErr w).1.run = w.run := by
  intro items
  induction items with
  | nil => intro w; rfl
  | cons it rest ih =>
    intro w
    unfold extractAll
    have ht := extractItem_run dst w it
    rcases hx : extractItem dst w it with ⟨w1, eo⟩
    rw [hx] at ht
    cases eo with
    | some e => exact ht
    | none =>
      simp only
      rw [ih w1]
      exact ht

/-- A fetch leaves the command oracle alone. -/
theorem fetchLatestCode_run (c : Config) (dst : String) (w : World) :
    (fetchLatestCode c dst w).1.run = w.run := by
  unfold fetchLatestCode
  simp only
  split
  · rfl
  · split
    · rfl
    · split_ifs
      · rfl
      · rw [extractAll_run]

/-- A fetch that succeeds has made exactly one upstream request and run no
command. -/
theorem fetchLatestCode_trace_ok (c : Config) (dst : String) (w : World)
    (h : (fetchLatestCode c dst w).2 = none) :
    (fetchLatestCode c dst w).1.trace =
      w.trace ++ [Action.get ("http://" ++ c.SourceServer) c.SourcePassword] := by
  unfold fetchLatestCode at h ⊢
  simp only at h ⊢
  split
  · rename_i e he
    rw [he] at h
    simp at h
  · rename_i he
    rw [he] at h
    simp only at h
    split
    · rename_i e hr
      rw [hr] at h
    · rename_i resp hr
      rw [hr] at h
      simp only at h
      split_ifs with hst
      · rw [if_pos hst] at h
      · rw [extractAll_trace]

/-! ## Lemmas: the update -/

/-- The body of `update` never gets past the reload: once the slot is taken
the call panics, leaving the world as it was. -/
theorem update_faults (c : Config) (w : World) (h : c.lock = false) :
    update c w = ({ c with lock := false }, w, .fault nilDeref) := by
  simp [update, TryLock, h, Unlock, ReadConfig, store]

/-- The steps of `update` after the reload stop at the first failing step: a
failed fetch is returned as it is, in the world the fetch left. -/
theorem updateSteps_fetch_error (c : Config) (w : World) (fs1 : FS) (w2 : World) (e : String)
    (hrm : RemoveAll w.fs c.SourceLocation = (fs1, none))
    (hfetch : fetchLatestCode c c.SourceLocation { w with fs := fs1 } = (w2, some e)) :
    updateSteps c w = (w2, some e) := by
  simp [updateSteps, hrm, hfetch]

/-- The steps of `update` after the reload: when `up` fails with error text
`e` and combined output `o`, the result is the error `e: o`, and the last
external action is the `up` command (`prune` is not run). -/
theorem updateSteps_up_error (c : Config) (w : World) (fs1 : FS) (w2 : World) (e o : String)
    (hrm : RemoveAll w.fs c.SourceLocation = (fs1, none))
    (hfetch : fetchLatestCode c c.SourceLocation { w with fs := fs1 } = (w2, none))
    (hup : w2.run c.SourceLocation
        ["docker", "compose", "up", "--force-recreate", "--build", "-d"] = (some e, o)) :
    (updateSteps c w).2 = some (e ++ ": " ++ o) ∧
    (updateSteps c w).1.trace = w2.trace ++ [Action.exec c.SourceLocation
        ["docker", "compose", "up", "--force-recreate", "--build", "-d"]] := by
  simp [updateSteps, hrm, hfetch, up, hup]

/-- An `update` that takes the slot leaves it free, however its body ends. -/
theorem update_unlocks (c : Config) (w : World) (h : c.lock = false) :
    (update c w).1.lock = false := by
  simp [update, TryLock, h, Unlock]

/-! ## The trigger endpoint and the update slot (C1, C2, C3) -/

/-- C1: a request whose `Password` header differs from the configured trigger
secret is answered `401 Unauthorized`, and nothing else happens: the
configuration struct (its lock included) and the whole world (filesystem,
log of upstream fetches and external commands, standard output) are
unchanged. -/
theorem ServeHTTP_wrong_password (c : Config) (w : World) (r : Request)
    (h : r.Header.Get "Password" ≠ c.OrchestratorPassword) :
    ServeHTTP c w r = (c, w, .ok { status := 401, body := "Unauthorized\n" }) := by
  unfold ServeHTTP
  rw [if_pos h]
  rfl

/-- The request `Password: wrong` against the trigger secret `S1`. -/
theorem ServeHTTP_wrong_password_witness :
    (Request.mk [("Password", "wrong")]).Header.Get "Password" ≠ cfgAtStart.OrchestratorPassword ∧
    ServeHTTP cfgAtStart worldIdle (Request.mk [("Password", "wrong")]) =
      (cfgAtStart, worldIdle, .ok { status := 401, body := "Unauthorized\n" }) :=
  ⟨by decide, ServeHTTP_wrong_password cfgAtStart worldIdle _ (by decide)⟩

/-- C2: an `update` called while the slot is held fails at once with the
error `locked`; the configuration struct keeps its lock held and the world
(filesystem, log of fetches and commands) is unchanged. -/
theorem update_locked (c : Config) (w : World) (h : c.lock = true) :
    update c w = (c, w, .err "locked") := by
  simp [update, TryLock, h]

/-- An update attempted while another one holds the slot. -/
theorem update_locked_witness :
    cfgBusy.lock = true ∧ update cfgBusy worldIdle = (cfgBusy, worldIdle, .err "locked") :=
  ⟨by decide, update_locked cfgBusy worldIdle (by decide)⟩

/-- C3: an `update` that acquires the slot leaves it free when it ends,
however the body ends; so the next `update`, in whatever world, takes the
slot again and is not answered `locked`. -/
theorem update_frees_slot (c : Config) (w : World) (h : c.lock = false) :
    (update c w).1.lock = false ∧
    (TryLock (update c w).1).1 = true ∧
    ∀ w1 : World, (update (update c w).1 w1).2.2 ≠ .err "locked" := by
  have h1 : (update c w).1.lock = false := by
    simp [update, TryLock, h, Unlock]
  refine ⟨h1, by simp [TryLock, h1], ?_⟩
  intro w1
  simp [update, TryLock, h, Unlock, ReadConfig, store]

/-- An update started with the slot free. -/
theorem update_frees_slot_witness :
    cfgAtStart.lock = false ∧
    (update cfgAtStart worldIdle).1.lock = false ∧
    (TryLock (update cfgAtStart worldIdle).1).1 = true ∧
    ∀ w1 : World, (update (update cfgAtStart worldIdle).1 w1).2.2 ≠ .err "locked" :=
  ⟨by decide, update_frees_slot cfgAtStart worldIdle (by decide)⟩

/-! ## Failing steps of an update (C4, C5) -/

/-- C4: in the steps `update` runs after the reload (delete, fetch, `up`,
`prune`), when the tree has been deleted and `fetchLatestCode` fails with
error `e` (request failure, non-success status, or an error at some archive
entry), the steps return `e`; every action on the log is an earlier one or
the upstream request, so neither `up` nor `prune` has been run; and the
filesystem is the one left by the deletion with a first part `done` of the
served archive unpacked onto it in stream order, and nothing of the entries
after it (an entry whose copy broke off counts with the bytes read so far).
`update` runs these steps on the reloaded configuration. -/
theorem updateSteps_fetch_failure (c : Config) (w : World) (e : String)
    (hrm : (RemoveAll w.fs c.SourceLocation).2 = none)
    (hfetch : (fetchLatestCode c c.SourceLocation
      { w with fs := (RemoveAll w.fs c.SourceLocation).1 }).2 = some e) :
    (updateSteps c w).2 = some e ∧
    (∀ a ∈ (updateSteps c w).1.trace,
      a ∈ w.trace ∨ a = Action.get ("http://" ++ c.SourceServer) c.SourcePassword) ∧
    ∃ done : List TarItem,
      (∀ resp, w.roundTrip ("http://" ++ c.SourceServer) c.SourcePassword = .ok resp →
        done <+: resp.Body.items) ∧
      UnpackedOnto c.SourceLocation done (RemoveAll w.fs c.SourceLocation).1
        (updateSteps c w).1.fs := by
  rcases hr : RemoveAll w.fs c.SourceLocation with ⟨fs1, er⟩
  rw [hr] at hrm hfetch
  simp only at hrm hfetch
  subst hrm
  rcases hf : fetchLatestCode c c.SourceLocation { w with fs := fs1 } with ⟨w2, ef⟩
  rw [hf] at hfetch
  simp only at hfetch
  subst hfetch
  have hsteps : updateSteps c w = (w2, some e) := updateSteps_fetch_error c w fs1 w2 e hr hf
  have htrace := fetchLatestCode_trace c c.SourceLocation { w with fs := fs1 }
  have hpart := fetchLatestCode_partial c c.SourceLocation { w with fs := fs1 }
  rw [hf] at htrace hpart
  simp only at htrace hpart
  rw [hsteps]
  refine ⟨rfl, ?_, hpart⟩
  intro a ha
  simp only at ha
  rcases htrace with ht | ht
  · rw [ht] at ha
    exact Or.inl ha
  · rw [ht] at ha
    rcases List.mem_append.mp ha with h1 | h1
    · exact Or.inl h1
    · exact Or.inr (List.mem_singleton.mp h1)

/-- The archive that breaks off at its second entry: the error is returned, the
only action is the upstream request, and on disk are the directory `app/` and
the bytes of `app/main.sh` read so far, but not `app/README`. -/
theorem updateSteps_fetch_failure_witness :
    (RemoveAll worldBrokenFetch.fs cfgAtStart.SourceLocation).2 = none ∧
    (fetchLatestCode cfgAtStart cfgAtStart.SourceLocation
      { worldBrokenFetch with
        fs := (RemoveAll worldBrokenFetch.fs cfgAtStart.SourceLocation).1 }).2 =
      some "unexpected EOF" ∧
    ((updateSteps cfgAtStart worldBrokenFetch).2 = some "unexpected EOF" ∧
      (∀ a ∈ (updateSteps cfgAtStart worldBrokenFetch).1.trace,
        a ∈ worldBrokenFetch.trace ∨
        a = Action.get ("http://" ++ cfgAtStart.SourceServer) cfgAtStart.SourcePassword) ∧
      ∃ done : List TarItem,
        (∀ resp, worldBrokenFetch.roundTrip ("http://" ++ cfgAtStart.SourceServer)
            cfgAtStart.SourcePassword = .ok resp → done <+: resp.Body.items) ∧
        UnpackedOnto cfgAtStart.SourceLocation done
          (RemoveAll worldBrokenFetch.fs cfgAtStart.SourceLocation).1
          (updateSteps cfgAtStart worldBrokenFetch).1.fs) ∧
    (updateSteps cfgAtStart worldBrokenFetch).1.trace =
      [Action.get "http://src.example:8080" "pw"] ∧
    (updateSteps cfgAtStart worldBrokenFetch).1.fs ⟨true, 0, ["srv", "app", "app"]⟩ =
      some (Node.dir 0o755) ∧
    (updateSteps cfgAtStart worldBrokenFetch).1.fs ⟨true, 0, ["srv", "app", "app", "main.sh"]⟩ =
      some (Node.file 0o666 "echo") ∧
    (updateSteps cfgAtStart worldBrokenFetch).1.fs ⟨true, 0, ["srv", "app", "app", "README"]⟩ =
      none :=
  ⟨by decide, by decide,
    updateSteps_fetch_failure cfgAtStart worldBrokenFetch "unexpected EOF"
      (by decide) (by decide),
    by decide, by decide, by decide, by decide⟩

/-- C5: in the steps `update` runs after the reload, when the tree has been
deleted, the fetch has succeeded and the command `up` fails with error text
`e` (the exit status) and combined output `o`, the steps return the error
`e: o`, and the actions of the attempt are the upstream request followed by
the `up` command: `prune` is not run.  Moreover every `update` that takes the
slot leaves it free, so the next trigger passes `TryLock`. -/
theorem updateSteps_up_failure (c : Config) (w : World) (e o : String)
    (hrm : (RemoveAll w.fs c.SourceLocation).2 = none)
    (hfetch : (fetchLatestCode c c.SourceLocation
      { w with fs := (RemoveAll w.fs c.SourceLocation).1 }).2 = none)
    (hup : w.run c.SourceLocation
      ["docker", "compose", "up", "--force-recreate", "--build", "-d"] = (some e, o)) :
    (updateSteps c w).2 = some (e ++ ": " ++ o) ∧
    (updateSteps c w).1.trace =
      w.trace ++ [Action.get ("http://" ++ c.SourceServer) c.SourcePassword,
        Action.exec c.SourceLocation
          ["docker", "compose", "up", "--force-recreate", "--build", "-d"]] ∧
    Action.exec c.SourceLocation ["docker", "image", "prune", "-f"] ∉
      [Action.get ("http://" ++ c.SourceServer) c.SourcePassword,
        Action.exec c.SourceLocation
          ["docker", "compose", "up", "--force-recreate", "--build", "-d"]] ∧
    ∀ (c0 : Config) (w0 : World), c0.lock = false →
      (update c0 w0).1.lock = false ∧ (TryLock (update c0 w0).1).1 = true := by
  rcases hr : RemoveAll w.fs c.SourceLocation with ⟨fs1, er⟩
  rw [hr] at hrm hfetch
  simp only at hrm hfetch
  subst hrm
  have htr := fetchLatestCode_trace_ok c c.SourceLocation { w with fs := fs1 } hfetch
  have hrun := fetchLatestCode_run c c.SourceLocation { w with fs := fs1 }
  rcases hf : fetchLatestCode c c.SourceLocation { w with fs := fs1 } with ⟨w2, ef⟩
  rw [hf] at hfetch htr hrun
  simp only at hfetch htr hrun
  subst hfetch
  have hup2 : w2.run c.SourceLocation
      ["docker", "compose", "up", "--force-recreate", "--build", "-d"] = (some e, o) := by
    rw [hrun]
    exact hup
  obtain ⟨h1, h2⟩ := updateSteps_up_error c w fs1 w2 e o hr hf hup2
  refine ⟨h1, ?_, by simp, ?_⟩
  · rw [h2, htr]
    simp
  · intro c0 w0 h0
    have hl := update_unlocks c0 w0 h0
    exact ⟨hl, by simp [TryLock, hl]⟩

/-- The scenario: `docker compose up` exits with status 1 and output
`no such file`. -/
theorem updateSteps_up_failure_witness :
    (RemoveAll worldUpFails.fs cfgAtStart.SourceLocation).2 = none ∧
    (fetchLatestCode cfgAtStart cfgAtStart.SourceLocation
      { worldUpFails with
        fs := (RemoveAll worldUpFails.fs cfgAtStart.SourceLocation).1 }).2 = none ∧
    worldUpFails.run cfgAtStart.SourceLocation
      ["docker", "compose", "up", "--force-recreate", "--build", "-d"] =
      (some "exit status 1", "no such file") ∧
    ((updateSteps cfgAtStart worldUpFails).2 = some ("exit status 1" ++ ": " ++ "no such file") ∧
      (updateSteps cfgAtStart worldUpFails).1.trace =
        worldUpFails.trace ++
          [Action.get ("http://" ++ cfgAtStart.SourceServer) cfgAtStart.SourcePassword,
            Action.exec cfgAtStart.SourceLocation
              ["docker", "compose", "up", "--force-recreate", "--build", "-d"]] ∧
      Action.exec cfgAtStart.SourceLocation ["docker", "image", "prune", "-f"] ∉
        [Action.get ("http://" ++ cfgAtStart.SourceServer) cfgAtStart.SourcePassword,
          Action.exec cfgAtStart.SourceLocation
            ["docker", "compose", "up", "--force-recreate", "--build", "-d"]] ∧
      ∀ (c0 : Config) (w0 : World), c0.lock = false →
        (update c0 w0).1.lock = false ∧ (TryLock (update c0 w0).1).1 = true) ∧
    (updateSteps cfgAtStart worldUpFails).2 = some "exit status 1: no such file" :=
  ⟨by decide, by decide, by decide,
    updateSteps_up_failure cfgAtStart worldUpFails "exit status 1" "no such file"
      (by decide) (by decide) (by decide),
    by decide⟩

/-! ## The archive fetcher (C6, C7, C8) -/

/-- C6 (the code departs from the claim): the scenario's archive, fetched
into an empty filesystem with umask `0`, leaves `app/main.sh` (recorded with
mode `0755`) with content `echo hi` and mode `0666`, which has no execute
bit, while the directory `app/` does get its recorded mode `0755`.  In
general a regular-file entry is unpacked in the same way whatever mode it
records (`os.Create` never sees `header.Mode`), and the mode a new file gets,
`0666` minus the umask, has no execute bit under any umask. -/
theorem fetchLatestCode_drops_file_mode :
    (fetchLatestCode cfgAtStart "/srv/app" (worldServing scenarioArchive)).2 = none ∧
    (fetchLatestCode cfgAtStart "/srv/app" (worldServing scenarioArchive)).1.fs
      ⟨true, 0, ["srv", "app", "app"]⟩ = some (Node.dir 0o755) ∧
    (fetchLatestCode cfgAtStart "/srv/app" (worldServing scenarioArchive)).1.fs
      ⟨true, 0, ["srv", "app", "app", "main.sh"]⟩ = some (Node.file 0o666 "echo hi") ∧
    (Node.file 0o666 "echo hi").perm &&& 0o111 = 0 ∧
    (∀ (dst : String) (w : World) (name data : String) (ce : Option String) (m1 m2 : Int),
      extractItem dst w
          { header := some { Name := name, Typeflag := TypeReg, Mode := m1 },
            data := data, copyErr := ce } =
        extractItem dst w
          { header := some { Name := name, Typeflag := TypeReg, Mode := m2 },
            data := data, copyErr := ce }) ∧
    (∀ (fs fs1 : FS) (u : Nat) (p : Path) (d : String), stat fs p = none →
      Create fs u p d = .ok fs1 →
      ∃ n, fs1 p = some n ∧ n.perm = applyUmask u 0o666 ∧ n.perm &&& 0o111 = 0) :=
  ⟨by decide, by decide, by decide, by decide, fun _ _ _ _ _ _ _ => rfl,
    fun _ _ u _ d hn h =>
      ⟨Node.file (applyUmask u 0o666) d, Create_new_mode hn h, rfl,
        applyUmask_create_no_exec u⟩⟩

/-- C7, as stated, fails: the archive `duplicateArchive` is served with status
200 into an empty filesystem and the fetch succeeds, yet the file of its
first regular-file entry (name `a`, bytes `x`) holds `y`, the bytes of the
second entry of the same name. -/
theorem fetchLatestCode_duplicate_names :
    duplicateArchive.items.head? =
      some { header := some { Name := "a", Typeflag := TypeReg, Mode := 0o644 },
             data := "x", copyErr := none } ∧
    (fetchLatestCode cfgAtStart "/srv/app" (worldServing duplicateArchive)).2 = none ∧
    Join "/srv/app" "a" = some ⟨true, 0, ["srv", "app", "a"]⟩ ∧
    fileAt (fetchLatestCode cfgAtStart "/srv/app" (worldServing duplicateArchive)).1.fs
      ⟨true, 0, ["srv", "app", "a"]⟩ = some "y" ∧
    fileAt (fetchLatestCode cfgAtStart "/srv/app" (worldServing duplicateArchive)).1.fs
      ⟨true, 0, ["srv", "app", "a"]⟩ ≠ some "x" :=
  ⟨by decide, by decide, by decide, by decide, by decide⟩

/-- C7, amended: when an archive is served with status 200 into a destination
that holds nothing and `fetchLatestCode` succeeds, the filesystem matches the
archive in the sense of `TreeMatches`: (1) the name of every directory entry
resolves to a directory; (2) the name of every regular-file entry resolves to
a file that holds the bytes of the last regular-file entry of the archive
resolving to that path; (3) so it holds the entry's own bytes when no later
entry writes to the same path; (4) every file at or below the destination is
at the path of a regular-file entry of the archive and holds that entry's
bytes. -/
theorem fetchLatestCode_tree (c : Config) (dst : String) (w : World) (resp : HttpResponse)
    (hrt : w.roundTrip ("http://" ++ c.SourceServer) c.SourcePassword = .ok resp)
    (hempty : ∀ q, Path.under (Clean dst) q → w.fs q = none)
    (hok : (fetchLatestCode c dst w).2 = none) :
    TreeMatches dst resp.Body.items (fetchLatestCode c dst w).1.fs := by
  rcases hf : fetchLatestCode c dst w with ⟨w1, eo⟩
  rw [hf] at hok
  simp only at hok
  subst hok
  unfold TreeMatches
  simp only
  rcases fetchLatestCode_cases hf with ⟨_, hne⟩ | ⟨resp1, hrt1, hx⟩
  · exact absurd rfl hne
  · rw [hrt] at hrt1
    simp only [Except.ok.injEq] at hrt1
    subst hrt1
    have hfile := extractAll_fileAt dst _ _ _ _ hx
    simp only at hfile
    have hw : ∀ it (p : Path) (hd : Header), it.header = some hd → hd.Typeflag = TypeReg →
        Join dst hd.Name = some p → itemWrite dst it p = some it.data := by
      intro it p hd hh ht hj
      rw [itemWrite_of_reg hh ht hj, if_pos rfl]
    refine ⟨extractAll_dirs_made dst _ _ _ _ hx, ?_, ?_, ?_⟩
    · intro it hit hd hh ht
      obtain ⟨p, hj⟩ := extractAll_reg_resolves dst _ _ _ _ hx it hit hd hh ht
      obtain ⟨s, hs⟩ := written_of_mem dst p _ it hit _ (hw it p hd hh ht hj)
      refine ⟨p, s, hj, hs, ?_⟩
      rw [hfile p, hs]
    · intro pre it post hd p hitems hh ht hj hpost
      rw [hfile p, hitems, written_last dst p pre post it _ (hw it p hd hh ht hj) hpost]
    · intro q s hq hs
      rw [hfile q] at hs
      cases hwq : written dst resp.Body.items q with
      | some s1 =>
        rw [hwq] at hs
        simp only [Option.some.injEq] at hs
        subst hs
        obtain ⟨it, hit, hiw⟩ := written_mem dst q _ _ hwq
        obtain ⟨hd, hh, ht, hj, hdata⟩ := itemWrite_some hiw
        exact ⟨it, hit, hd, hh, ht, hj, hdata⟩
      | none =>
        rw [hwq] at hs
        simp only at hs
        have hnone : fileAt w.fs q = none := by
          unfold fileAt stat
          cases q.elems with
          | nil => rfl
          | cons a l => simp only; rw [hempty q hq]
        rw [hnone] at hs
        simp at hs

/-- The archive of the scenario, fetched into an empty filesystem. -/
theorem fetchLatestCode_tree_witness :
    (worldServing scenarioArchive).roundTrip ("http://" ++ cfgAtStart.SourceServer)
        cfgAtStart.SourcePassword =
      .ok { StatusCode := 200, Status := "200 OK", Body := scenarioArchive } ∧
    (∀ q, Path.under (Clean "/srv/app") q → (worldServing scenarioArchive).fs q = none) ∧
    (fetchLatestCode cfgAtStart "/srv/app" (worldServing scenarioArchive)).2 = none ∧
    TreeMatches "/srv/app" scenarioArchive.items
      (fetchLatestCode cfgAtStart "/srv/app" (worldServing scenarioArchive)).1.fs :=
  ⟨rfl, fun _ _ => rfl, by decide,
    fetchLatestCode_tree cfgAtStart "/srv/app" (worldServing scenarioArchive)
      { StatusCode := 200, Status := "200 OK", Body := scenarioArchive }
      rfl (fun _ _ => rfl) (by decide)⟩

/-- C8, as stated, fails: the entry `../evil.sh`, joined onto the destination
`/srv/app`, resolves to `/srv/evil.sh`, outside the destination; the fetch
does not fail, and afterwards the file `/srv/evil.sh`, which did not exist,
holds the entry's bytes. -/
theorem fetchLatestCode_escapes :
    Join "/srv/app" "../evil.sh" = some ⟨true, 0, ["srv", "evil.sh"]⟩ ∧
    ¬ Path.under (Clean "/srv/app") ⟨true, 0, ["srv", "evil.sh"]⟩ ∧
    (worldServing escapingArchive).fs ⟨true, 0, ["srv", "evil.sh"]⟩ = none ∧
    (fetchLatestCode cfgAtStart "/srv/app" (worldServing escapingArchive)).2 = none ∧
    (fetchLatestCode cfgAtStart "/srv/app" (worldServing escapingArchive)).1.fs
      ⟨true, 0, ["srv", "evil.sh"]⟩ = some (Node.file 0o666 "boom") :=
  ⟨by decide, by decide, by decide, by decide, by decide⟩

/-- C8, amended: when every entry name of the served archive resolves to a
path inside the destination, `fetchLatestCode`, however it ends, leaves every
path outside the destination as it was, except that a missing directory above
the destination may have been made: no file is written outside the
destination. -/
theorem fetchLatestCode_contained (c : Config) (dst : String) (w : World)
    (hin : ∀ resp, w.roundTrip ("http://" ++ c.SourceServer) c.SourcePassword = .ok resp →
      ∀ it ∈ resp.Body.items, ∀ hd p, it.header = some hd → Join dst hd.Name = some p →
        Path.under (Clean dst) p)
    (q : Path) (hq : ¬ Path.under (Clean dst) q) :
    stat (fetchLatestCode c dst w).1.fs q = stat w.fs q ∨
    (stat w.fs q = none ∧
      (∃ m, stat (fetchLatestCode c dst w).1.fs q = some (Node.dir m)) ∧
      Path.under q (Clean dst)) :=
  fetchLatestCode_outside c dst w hin q hq

/-- The archive of the scenario and the path `/srv`, above the destination `/srv/app`. -/
theorem fetchLatestCode_contained_witness :
    (∀ resp, (worldServing scenarioArchive).roundTrip ("http://" ++ cfgAtStart.SourceServer)
        cfgAtStart.SourcePassword = .ok resp →
      ∀ it ∈ resp.Body.items, ∀ hd p, it.header = some hd → Join "/srv/app" hd.Name = some p →
        Path.under (Clean "/srv/app") p) ∧
    ¬ Path.under (Clean "/srv/app") ⟨true, 0, ["srv"]⟩ ∧
    (stat (fetchLatestCode cfgAtStart "/srv/app" (worldServing scenarioArchive)).1.fs
        ⟨true, 0, ["srv"]⟩ = stat (worldServing scenarioArchive).fs ⟨true, 0, ["srv"]⟩ ∨
      (stat (worldServing scenarioArchive).fs ⟨true, 0, ["srv"]⟩ = none ∧
        (∃ m, stat (fetchLatestCode cfgAtStart "/srv/app" (worldServing scenarioArchive)).1.fs
          ⟨true, 0, ["srv"]⟩ = some (Node.dir m)) ∧
        Path.under ⟨true, 0, ["srv"]⟩ (Clean "/srv/app"))) := by
  have hin : ∀ resp, (worldServing scenarioArchive).roundTrip
      ("http://" ++ cfgAtStart.SourceServer) cfgAtStart.SourcePassword = .ok resp →
      ∀ it ∈ resp.Body.items, ∀ hd p, it.header = some hd → Join "/srv/app" hd.Name = some p →
        Path.under (Clean "/srv/app") p := by
    intro resp hresp it hit hd p hh hj
    have hr : resp = { StatusCode := 200, Status := "200 OK", Body := scenarioArchive } := by
      have h2 : (Except.ok { StatusCode := 200, Status := "200 OK", Body := scenarioArchive } :
          Except String HttpResponse) = .ok resp := hresp
      injection h2 with h3
      exact h3.symm
    subst hr
    have hnames : ∀ name, name = "app/" ∨ name = "app/main.sh" →
        ∀ p, Join "/srv/app" name = some p → Path.under (Clean "/srv/app") p := by
      intro name hn p hp
      rcases hn with rfl | rfl
      · have : Join "/srv/app" "app/" = some ⟨true, 0, ["srv", "app", "app"]⟩ := by decide
        rw [this] at hp
        injection hp with hp
        subst hp
        decide
      · have : Join "/srv/app" "app/main.sh" =
            some ⟨true, 0, ["srv", "app", "app", "main.sh"]⟩ := by decide
        rw [this] at hp
        injection hp with hp
        subst hp
        decide
    have hmem : it = scenarioArchive.items.get ⟨0, by decide⟩ ∨
        it = scenarioArchive.items.get ⟨1, by decide⟩ := by
      simpa [scenarioArchive] using hit
    rcases hmem with rfl | rfl
    · have : hd.Name = "app/" := by
        simp [scenarioArchive] at hh
        rw [← hh]
      exact hnames _ (Or.inl this) p hj
    · have : hd.Name = "app/main.sh" := by
        simp [scenarioArchive] at hh
        rw [← hh]
      exact hnames _ (Or.inr this) p hj
  exact ⟨hin, by decide,
    fetchLatestCode_contained cfgAtStart "/srv/app" (worldServing scenarioArchive) hin
      ⟨true, 0, ["srv"]⟩ (by decide)⟩

/-! ## The configuration and its rotation (C9, C10) -/

/-- C9 (the code departs from the claim): `ReadConfig` never returns.  Its
first statement stores through the nil pointer `c`, so for every filesystem
and every directory the call panics; in particular it does so for the
directory `config` of `worldIdle`, whose four files are readable and for
which the claimed result is the configuration `cfgAtStart`. -/
theorem ReadConfig_nil_store :
    (∀ (fs : FS) (dir : String), ReadConfig fs dir = .fault nilDeref) ∧
    ReadConfigClaimed worldIdle.fs "config" = .ok (some cfgAtStart) :=
  ⟨fun _ _ => rfl, by decide⟩

/-- C10, as stated, fails: after all four files have been rotated (the
trigger secret from `S1` to `S2`), a request carrying the new secret `S2` is
answered `401`, and a request carrying the old secret `S1` is still let
through to `update`. -/
theorem rotation_not_picked_up :
    ReadFile worldRotated.fs (Join cfgAtStart.ConfigDir "orchestrator_password") = .ok "S2\n" ∧
    (ServeHTTP cfgAtStart worldRotated (Request.mk [("Password", "S2")])).2.2 =
      .ok { status := 401, body := "Unauthorized\n" } ∧
    (ServeHTTP cfgAtStart worldRotated (Request.mk [("Password", "S1")])).2.2 ≠
      .ok { status := 401, body := "Unauthorized\n" } :=
  ⟨rfl, by decide, by decide⟩

/-- C10, amended: whatever the configuration directory holds, a request is
answered `401` exactly when its `Password` header differs from the
`OrchestratorPassword` of the configuration the handler was started with;
and neither `update` nor the handler changes any of the five values of that
configuration (only its lock is taken and released). -/
theorem trigger_secret_is_the_loaded_one (c : Config) (w : World) (r : Request) :
    ((ServeHTTP c w r).2.2 = .ok { status := 401, body := "Unauthorized\n" } ↔
      r.Header.Get "Password" ≠ c.OrchestratorPassword) ∧
    (update c w).1 = { c with lock := (update c w).1.lock } ∧
    (ServeHTTP c w r).1 = { c with lock := (ServeHTTP c w r).1.lock } := by
  have hu : (update c w).1 = { c with lock := (update c w).1.lock } := by
    unfold update TryLock Unlock
    cases c with
    | mk d l s p o k => cases k <;> simp
  refine ⟨?_, hu, ?_⟩
  · constructor
    · intro h hne
      unfold ServeHTTP at h
      rw [if_neg (not_not.mpr hne)] at h
      rcases hres : update c w with ⟨c1, w1, res⟩
      rw [hres] at h
      cases res with
      | ok a => simp at h
      | err e => simp [httpError, StatusInternalServerError] at h
      | fault m => simp at h
    · intro h
      unfold ServeHTTP
      rw [if_pos h]
      rfl
  · unfold ServeHTTP
    by_cases h : r.Header.Get "Password" ≠ c.OrchestratorPassword
    · rw [if_pos h]
    · rw [if_neg h]
      rcases hres : update c w with ⟨c1, w1, res⟩
      rw [hres] at hu
      cases res with
      | ok a => exact hu
      | err e => exact hu
      | fault m => exact hu

end Orchestrator
